import Mathlib

/-!
# Verification of the zigen-trainer card scheduling engine

This file gives a shallow embedding of the three schedulers of the
zigen-trainer repository (`src/scheduler.rs`, `src/scheduler_v2.rs`,
`src/scheduler_fsrs.rs`) and proves/refutes the specification claims
about them.

Modelling conventions:
* `f64` values that only undergo field arithmetic, `max`, `round` and
  integer casts are modelled as `ℚ` (exact); the FSRS formulas, which use
  `powf`/`exp`, are modelled over `ℝ`.
* `DateTime<Utc>` is modelled as `ℤ` (seconds); `Utc::now()` becomes an
  explicit `now : ℤ` argument.
* `Vec`/`VecDeque` become `List`; `VecDeque::insert` panics when the index
  exceeds the length, which is modelled by the `Except Panic` monad with
  `Panic.idx` reserved for out-of-range index/insert panics and
  `Panic.other` for the remaining panics (`unwrap`, `assert!`,
  `unreachable!`).
* The `new_cards` vector is used by the source purely as a stack (the
  pending list is reversed at construction and cards are taken from the
  vector's end).  We store it in pop order: the list head is the next card
  drawn, so construction does not reverse, and draining `k` cards yields
  `take k`/`drop k`.
-/

namespace ZT

/-- Rust `Rating` (src/scheduler.rs). -/
inductive Rating
  | Again
  | Hard
  | Good
  | Easy
deriving DecidableEq, Repr

/-- `Rating::difficulty` (src/scheduler.rs): Again=3, Hard=2, Good=1, Easy=0. -/
def Rating.difficulty : Rating → ℚ
  | .Again => 3
  | .Hard => 2
  | .Good => 1
  | .Easy => 0

/-- Rust `Card` state enum of the interval scheduler (src/scheduler.rs). -/
inductive Card
  | New
  | Learning (attempts : ℤ) (last_reviewed : ℤ)
  | Review (last_interval : ℚ) (repetition : ℕ) (easiness_factor : ℚ)
      (last_reviewed : ℤ) (due : ℤ)
deriving DecidableEq, Repr

/-- Rust `FlashCard<C>`; the opaque content is modelled by a `ℕ` identity. -/
structure FlashCard where
  content : ℕ
  card : Card
deriving DecidableEq, Repr

/-- The `ScheduleParam` trait constants (src/scheduler.rs). -/
structure Param where
  learn_review_ratio : ℕ
  max_learning_attempts : ℕ
  intervals_s : List ℕ
  intervals_f : List ℕ
deriving DecidableEq, Repr

/-- `ScheduleParam::LEARNING_CARDS = LEARNING_INTERVALS_S[MAX_LEARNING_ATTEMPTS-1] + 1`.
(The tables are compile-time constants, so the index is in range for both
parameter sets shipped by the source.) -/
def Param.learning_cards (p : Param) : ℕ :=
  p.intervals_s.getD (p.max_learning_attempts - 1) 0 + 1

/-- `ScheduleParamsNovice` (src/scheduler.rs). -/
def novice : Param := ⟨8, 3, [3, 6, 9], [2, 4, 6]⟩

/-- `ScheduleParamsAdept` (src/scheduler.rs). -/
def adept : Param := ⟨20, 2, [3, 6], [2, 4]⟩

/-- Panic kinds: `idx` are out-of-range index/insert panics, `other` covers
`unwrap` on `None`, `assert!` failures and `unreachable!`. -/
inductive Panic
  | idx
  | other
deriving DecidableEq, Repr

/-- Rust `usize::MAX` (wasm32 target would be `2^32-1`; the value is only
compared for equality and clamped by `min`, so the exact width is
irrelevant to every claim; we use the 64-bit value). -/
def USIZE_MAX : ℕ := 2 ^ 64 - 1

/-- `f64::round`: round half away from zero. -/
def ratRound (q : ℚ) : ℚ :=
  if 0 ≤ q then ((⌊q + 1 / 2⌋ : ℤ) : ℚ) else ((⌈q - 1 / 2⌉ : ℤ) : ℚ)

/-- `f64 as usize`: truncate toward zero, saturating at `0` and `usize::MAX`. -/
def ratToUsize (q : ℚ) : ℕ :=
  if 0 ≤ q then min (⌊q⌋.toNat) USIZE_MAX else 0

/-- `i32 as usize` (on the flush path): two's-complement reinterpretation. -/
def usizeOfInt (a : ℤ) : ℕ := (a % (2 ^ 64)).toNat

/-- Checked slice index `l[i]`: panics (with an index panic) when out of
range, like Rust slice indexing. -/
def tblE (l : List ℕ) (i : ℕ) : Except Panic ℕ :=
  if h : i < l.length then .ok (l.get ⟨i, h⟩) else .error .idx

/-- `VecDeque::insert(at, card)`: panics when `at > len`. -/
def vecInsert (l : List FlashCard) (i : ℕ) (a : FlashCard) : Except Panic (List FlashCard) :=
  if i ≤ l.length then .ok (l.insertIdx i a) else .error .idx

/-- `Scheduler` state (src/scheduler.rs); `new_cards` is stored in pop
order (see the module docstring). -/
structure State where
  new_cards : List FlashCard
  learning_cards : List FlashCard
  reviewing_cards : List FlashCard
  done_learning : ℕ
deriving DecidableEq, Repr

/-- `Scheduler::populate_learning_cards` (src/scheduler.rs lines 152-167):
refill the learning queue from the stack of unseen cards, up to
`LEARNING_CARDS`; drained cards are pushed to the queue's front. -/
def populate (p : Param) (s : State) : State :=
  if s.learning_cards.length < p.learning_cards ∧ s.new_cards ≠ [] then
    let diff := p.learning_cards - s.learning_cards.length
    let k := min diff s.new_cards.length
    { s with
      learning_cards := s.new_cards.take k ++ s.learning_cards
      new_cards := s.new_cards.drop k }
  else s

/-- `ReviewStatus` (src/scheduler.rs). -/
inductive ReviewStatus
  | Learn
  | ReviewIntersperse
  | Review
deriving DecidableEq, Repr

/-- The learning-queue census performed by `review_status` once the unseen
stack is empty: count cards that are `New` or `Learning` with
`attempts < MAX_LEARNING_ATTEMPTS`; a `Review` card in the learning queue
hits `unreachable!()`. -/
def countLearnable (p : Param) : List FlashCard → Except Panic ℕ
  | [] => .ok 0
  | c :: cs =>
    match c.card with
    | .Learning a _ =>
      match countLearnable p cs with
      | .ok n => .ok (if a < (p.max_learning_attempts : ℤ) then n + 1 else n)
      | .error e => .error e
    | .New =>
      match countLearnable p cs with
      | .ok n => .ok (n + 1)
      | .error e => .error e
    | .Review _ _ _ _ _ => .error .other

/-- `Scheduler::review_status` (src/scheduler.rs lines 170-195). -/
def review_status (p : Param) (s : State) : Except Panic ReviewStatus :=
  match (if s.new_cards = [] then countLearnable p s.learning_cards
         else .ok p.learn_review_ratio) with
  | .error e => .error e
  | .ok r =>
    .ok (if r ≤ s.done_learning ∧ 0 < s.reviewing_cards.length then
           if s.learning_cards ≠ [] then .ReviewIntersperse else .Review
         else .Learn)

/-- `Scheduler::new` (src/scheduler.rs lines 137-150). -/
def Scheduler.new (p : Param) (pending : List FlashCard) : State :=
  populate p
    { new_cards := pending, learning_cards := [], reviewing_cards := [], done_learning := 0 }

/-- `Scheduler::get_card` (src/scheduler.rs lines 197-203).  Takes `&self`
in Rust, hence a pure function of the state. -/
def get_card (p : Param) (s : State) : Except Panic FlashCard :=
  match review_status p s with
  | .error e => .error e
  | .ok .Review =>
    match s.reviewing_cards.head? with
    | some c => .ok c
    | none => .error .other
  | .ok .ReviewIntersperse =>
    match s.reviewing_cards.getLast? with
    | some c => .ok c
    | none => .error .other
  | .ok .Learn =>
    match s.learning_cards.head? with
    | some c => .ok c
    | none => .error .other

/-- `Scheduler::total_cards` (src/scheduler.rs lines 399-401). -/
def total_cards (s : State) : ℕ :=
  s.new_cards.length + s.learning_cards.length + s.reviewing_cards.length

/-- The SM-2 easiness update shared by both review branches (src/scheduler.rs
lines 230-232 and 250-252): `ef += 0.1 - d*(0.08 + d*0.2)`, floored at 1.3. -/
def efUpdate (ef : ℚ) (r : Rating) : ℚ :=
  max (ef + 1 / 10 - r.difficulty * (8 / 100 + r.difficulty * (2 / 10))) (13 / 10)

/-- The `Card::Review` match arms of `Scheduler::rate_card` (src/scheduler.rs
lines 214-261): returns the updated card state, the reinsertion interval
(`last_interval as usize`) and the `back_to_learn` flag. -/
def reviewUpdate (now : ℤ) (r : Rating) (li : ℚ) (rep : ℕ) (ef : ℚ) :
    Card × ℕ × Bool :=
  if r ≠ .Again then
    let li' : ℚ := if rep = 0 then 3 else if rep = 1 then 6 else ratRound (li * ef)
    (.Review li' (rep + 1) (efUpdate ef r) now (now + 86400), ratToUsize li', false)
  else
    (.Review 3 0 (efUpdate ef r) now (now + 60), ratToUsize 3, true)

/-- Pop the card the review phase acts on: queue front for `Review`, queue
back for `ReviewIntersperse` (src/scheduler.rs lines 207-211). -/
def popReview (s : State) (st : ReviewStatus) : Except Panic (FlashCard × List FlashCard) :=
  if st = .Review then
    match s.reviewing_cards with
    | [] => .error .other
    | c :: cs => .ok (c, cs)
  else
    match s.reviewing_cards.getLast? with
    | none => .error .other
    | some c => .ok (c, s.reviewing_cards.dropLast)

/-- The review-phase half of `Scheduler::rate_card` (src/scheduler.rs lines
206-279).  A failed card is demoted into the learning queue at offset
`LEARNING_INTERVALS_F[0]` — taken directly from the constant, without
clamping — when the learning queue is non-empty; otherwise the card is
reinserted into the review queue at a clamped offset. -/
def reviewStep (p : Param) (now : ℤ) (s : State) (r : Rating) (st : ReviewStatus) :
    Except Panic State :=
  match popReview s st with
  | .error e => .error e
  | .ok (card, restRev) =>
    match card.card with
    | .Review li rep ef _ _ =>
      let u := reviewUpdate now r li rep ef
      if u.2.2 ∧ s.learning_cards ≠ [] then
        match tblE p.intervals_f 0 with
        | .error e => .error e
        | .ok f0 =>
          match vecInsert s.learning_cards f0 { card with card := .Learning 1 now } with
          | .error e => .error e
          | .ok nl =>
            .ok (populate p
              { s with learning_cards := nl, reviewing_cards := restRev, done_learning := 0 })
      else
        match vecInsert restRev (min u.2.1 restRev.length) { card with card := u.1 } with
        | .error e => .error e
        | .ok nr =>
          .ok (populate p { s with reviewing_cards := nr, done_learning := 0 })
    | _ => .error .other

/-- The `Card::Learning`/`Card::New` match of the learning-phase half of
`rate_card` (src/scheduler.rs lines 284-327): the updated card state, the
`to_review` flag and the reinsertion interval.  The interval-table indices
are clamped by `min(·, len - 1)` in the source. -/
def learnCompute (p : Param) (now : ℤ) (r : Rating) : Card → Except Panic (Card × Bool × ℕ)
  | .Learning a _ =>
    let a' := if r = .Again then min (a - 1) 0 else max (a + 1) 0
    if (p.max_learning_attempts : ℤ) ≤ a' then
      .ok (.Learning a' now, true, USIZE_MAX)
    else if a' < 0 then
      match tblE p.intervals_f (min (-a').toNat (p.intervals_f.length - 1)) with
      | .error e => .error e
      | .ok v => .ok (.Learning a' now, false, v)
    else
      match tblE p.intervals_s (min a'.toNat (p.intervals_s.length - 1)) with
      | .error e => .error e
      | .ok v => .ok (.Learning a' now, false, v)
  | .New =>
    match tblE p.intervals_s 0 with
    | .error e => .error e
    | .ok v => .ok (.Learning 0 now, false, v)
  | .Review _ _ _ _ _ => .error .other

/-- Mastery default used on every promotion to the review phase
(src/scheduler.rs lines 354-360 and 368-374). -/
def promoted (now : ℤ) : Card := .Review 1 1 (5 / 2) now (now + 86400)

/-- The `can_flush` check (src/scheduler.rs lines 340-345): `all` over
the learning queue, short-circuiting on the first unmastered card;
a non-`Learning` card hits `unreachable!()`. -/
def allMastered (p : Param) : List FlashCard → Except Panic Bool
  | [] => .ok true
  | c :: cs =>
    match c.card with
    | .Learning a _ =>
      if (p.max_learning_attempts : ℤ) ≤ a then allMastered p cs else .ok false
    | _ => .error .other

/-- The mass flush of a fully mastered learning queue into the review queue
(src/scheduler.rs lines 347-365): each card is inserted at
`min(attempts*13/10, reviewing.len())` and replaced by the mastery default. -/
def flushCards (now : ℤ) : List FlashCard → List FlashCard → Except Panic (List FlashCard)
  | [], rev => .ok rev
  | c :: cs, rev =>
    match c.card with
    | .Learning a _ =>
      let interval := usizeOfInt a * 13 / 10
      match vecInsert rev (min interval rev.length) { c with card := promoted now } with
      | .error e => .error e
      | .ok rev' => flushCards now cs rev'
    | _ => .error .other

/-- The learning-phase half of `Scheduler::rate_card` (src/scheduler.rs
lines 280-383). -/
def learnStep (p : Param) (now : ℤ) (s : State) (r : Rating) : Except Panic State :=
  match s.learning_cards with
  | [] => .error .other
  | lc :: rest =>
    match learnCompute p now r lc.card with
    | .error e => .error e
    | .ok (c', to_review, interval) =>
      let lc' : FlashCard := { lc with card := c' }
      let mid : Except Panic State :=
        if to_review = false then
          match vecInsert rest (min interval rest.length) lc' with
          | .error e => .error e
          | .ok nl => .ok { s with learning_cards := nl }
        else if s.new_cards = [] ∧ rest.length ≤ p.learning_cards then
          let held := rest ++ [lc']
          match allMastered p held with
          | .error e => .error e
          | .ok true =>
            match flushCards now held s.reviewing_cards with
            | .error e => .error e
            | .ok nr => .ok { s with learning_cards := [], reviewing_cards := nr }
          | .ok false => .ok { s with learning_cards := held }
        else
          if interval = USIZE_MAX then
            match vecInsert s.reviewing_cards (min 1 s.reviewing_cards.length)
                { lc with card := promoted now } with
            | .error e => .error e
            | .ok nr => .ok { s with learning_cards := rest, reviewing_cards := nr }
          else
            match vecInsert s.reviewing_cards (min interval s.reviewing_cards.length) lc' with
            | .error e => .error e
            | .ok nr => .ok { s with learning_cards := rest, reviewing_cards := nr }
      match mid with
      | .error e => .error e
      | .ok s' => .ok (populate p { s' with done_learning := s.done_learning + 1 })

/-- `Scheduler::rate_card` (src/scheduler.rs lines 205-386). -/
def rate_card (p : Param) (now : ℤ) (s : State) (r : Rating) : Except Panic State :=
  match review_status p s with
  | .error e => .error e
  | .ok st =>
    if st ≠ .Learn then reviewStep p now s r st else learnStep p now s r

/-- Run a sequence of ratings (each with its own wall-clock instant). -/
def run (p : Param) (s : State) : List (ℤ × Rating) → Except Panic State
  | [] => .ok s
  | (now, r) :: rs =>
    match rate_card p now s r with
    | .error e => .error e
    | .ok s' => run p s' rs

/-- Whether a card state is a review-phase state. -/
def Card.isReview : Card → Bool
  | .Review _ _ _ _ _ => true
  | _ => false

/-- All cards held by the scheduler, across its three containers. -/
def allCards (s : State) : List FlashCard :=
  s.new_cards ++ s.learning_cards ++ s.reviewing_cards

/-- The easiness floor: a `Review` card state carries
`easiness_factor ≥ 1.3`; other card states carry no easiness factor. -/
def efOK : Card → Bool
  | .Review _ _ ef _ _ => decide ((13 : ℚ) / 10 ≤ ef)
  | _ => true

/-- The structural invariant maintained by the interval scheduler: while
unseen cards remain the learning queue is at full capacity, and a learning
queue of length exactly 1 can only occur while the review queue is still
empty. -/
def Inv (p : Param) (s : State) : Prop :=
  (s.new_cards ≠ [] → p.learning_cards ≤ s.learning_cards.length) ∧
  (s.learning_cards.length = 1 → s.reviewing_cards = [])

/-- States reachable from construction by successful ratings. -/
inductive Reachable (p : Param) : State → Prop
  | base (pending : List FlashCard) : Reachable p (Scheduler.new p pending)
  | step {s s' : State} {now : ℤ} {r : Rating} :
      Reachable p s → rate_card p now s r = .ok s' → Reachable p s'

/-- Result contract of a rating step: a failure is never an out-of-range
index panic, and a success re-establishes the structural invariant. -/
def ResOK (p : Param) : Except Panic State → Prop
  | .error e => e = Panic.other
  | .ok s' => Inv p s'

end ZT

namespace ZTV2

open ZT (Rating Panic ratRound)

/-- `i64` saturating cast of an `f64` (`(300.0 * last_interval) as i64`):
truncate toward zero, saturating at the `i64` bounds. -/
def ratToI64 (q : ℚ) : ℤ :=
  max (-(2 ^ 63)) (min (2 ^ 63 - 1) (if 0 ≤ q then ⌊q⌋ else ⌈q⌉))

/-- Rust `Card` enum of the priority scheduler (src/scheduler_v2.rs). -/
inductive Card
  | New
  | Learning (attempts : ℤ) (last_reviewed : ℤ)
  | Review (last_interval : ℚ) (repetition : ℕ) (easiness_factor : ℚ)
      (last_reviewed : ℤ) (due : ℤ)
deriving DecidableEq, Repr

/-- `SchedulerV2Card` (src/scheduler_v2.rs); the `SchemeZigen` content is
modelled by a `ℕ` identity (its `PartialEq` is what the anti-repeat swap
compares). -/
structure VCard where
  zigen : ℕ
  card : Card
deriving DecidableEq, Repr

/-- `ScheduleParam` (src/scheduler_v2.rs). -/
inductive ParamV2
  | Novice
  | Adept
deriving DecidableEq, Repr

/-- `ScheduleParam::max_learning_attempts` (src/scheduler_v2.rs). -/
def ParamV2.max_learning_attempts : ParamV2 → ℕ
  | .Novice => 3
  | .Adept => 2

/-- `ScheduleParam::learning_intervals_s` (src/scheduler_v2.rs). -/
def ParamV2.intervals_s : ParamV2 → List ℕ
  | .Novice => [3, 6, 9]
  | .Adept => [3, 6]

/-- `ScheduleParam::learning_intervals_f` (src/scheduler_v2.rs). -/
def ParamV2.intervals_f : ParamV2 → List ℕ
  | .Novice => [2, 4, 6]
  | .Adept => [2, 4]

/-- `ScheduleParam::learning_cards` (src/scheduler_v2.rs lines 173-175). -/
def ParamV2.learning_cards (p : ParamV2) : ℕ :=
  p.intervals_s.getD (p.max_learning_attempts - 1) 0 + 1

/-- `Card::rate_card` (src/scheduler_v2.rs lines 64-125).  In this variant a
`Learning` card's `attempts` is incremented by one regardless of the
rating, and promotion happens once `attempts + 1` reaches
`max_learning_attempts`. -/
def Card.rate (p : ParamV2) (r : Rating) (now : ℤ) : Card → Card
  | .New => .Learning 0 now
  | .Learning a _ =>
    let a' := a + 1
    if (p.max_learning_attempts : ℤ) ≤ a' then .Review 1 1 (5 / 2) now (now + 300)
    else .Learning a' now
  | .Review li rep ef _ _ =>
    let li' : ℚ :=
      if rep = 0 then 1 / 2 else if rep = 1 then 3 / 2 else if rep = 2 then 3
      else ratRound (li * ef)
    let rep' := if r ≠ .Again then rep + 1 else 0
    let ef' := max (ef + 1 / 10 - r.difficulty * (8 / 100 + r.difficulty * (2 / 10))) (13 / 10)
    .Review li' rep' ef' now (now + ratToI64 (300 * li'))

/-- `Card::needs_learning` (src/scheduler_v2.rs lines 127-133). -/
def Card.needs_learning (now : ℤ) : Card → Bool
  | .New => true
  | .Learning _ _ => true
  | .Review _ _ _ _ due => decide (due < now)

/-- The learning-queue distance used to order two `Learning` cards in the
comparator (src/scheduler_v2.rs lines 258-272); the success table is
indexed by `attempts`, the failure table by `-attempts - 1`, without
clamping (the indices are in range for the attempts values the scheduler
itself produces, which are `0 ≤ attempts < max_learning_attempts`). -/
def distance (p : ParamV2) (a : ℤ) : ℕ :=
  if 0 ≤ a then p.intervals_s.getD a.toNat 0 else p.intervals_f.getD (-a - 1).toNat 0

/-- The priority comparator passed to `sort_by`
(src/scheduler_v2.rs lines 240-285). -/
def cmpV2 (p : ParamV2) (now : ℤ) : Card → Card → Ordering
  | .New, .New => .eq
  | .New, .Learning _ _ => .lt
  | .New, .Review _ _ _ _ due => if due < now then .gt else .lt
  | .Learning a _, .Learning b _ => compare (distance p a) (distance p b)
  | .Learning _ _, .New => .gt
  | .Learning _ _, .Review _ _ _ _ due => if due < now then .gt else .lt
  | .Review _ _ _ _ due, .New => if due < now then .lt else .gt
  | .Review _ _ _ _ due, .Learning _ _ => if due < now then .lt else .gt
  | .Review _ _ _ _ d1, .Review _ _ _ _ d2 => compare d1 d2

/-- `SchedulerV2` state (src/scheduler_v2.rs); `new_cards` is stored in pop
order (head = next card drawn), as in the interval scheduler model. -/
structure StateV2 where
  new_cards : List VCard
  learning_cards : List VCard
  sched_param : ParamV2
deriving DecidableEq, Repr

/-- The `while` loop of `populate_learning_cards` (src/scheduler_v2.rs lines
209-215): pull unseen cards to the pool's end until the pool reaches
`learning_cards()` or the stack empties. -/
def pullLoop (lc : ℕ) : List VCard → List VCard → List VCard × List VCard
  | [], learning => ([], learning)
  | n :: ns, learning =>
    if learning.length < lc then pullLoop lc ns (learning ++ [n])
    else (n :: ns, learning)

/-- Swap the first two entries of a list (`Vec::swap(0, 1)`). -/
def swap01 : List VCard → List VCard
  | a :: b :: t => b :: a :: t
  | l => l

/-- The conditional extra pull of `populate_learning_cards`
(src/scheduler_v2.rs lines 219-231): whenever unseen cards remain and
fewer than `learning_cards()` pooled cards still need learning, one more
unseen card is appended to the pool.  The pair holds (unseen stack in pop
order, pool). -/
def extraPull (now : ℤ) (lc : ℕ) (q : List VCard × List VCard) : List VCard × List VCard :=
  if 0 < q.1.length then
    if (q.2.filter (fun c => c.card.needs_learning now)).length < lc then
      match q.1 with
      | n :: ns => (ns, q.2 ++ [n])
      | [] => q
    else q
  else q

/-- `SchedulerV2::populate_learning_cards` (src/scheduler_v2.rs lines
208-290): pull unseen cards up to capacity, pull one extra card when fewer
than capacity pooled cards still need learning, remember the current top
card, stable-sort by the priority comparator and swap the top two entries
when the top card's identity did not change.  `first().unwrap()` on an
empty pool panics. -/
def populateV2 (now : ℤ) (s : StateV2) : Except Panic StateV2 :=
  match extraPull now s.sched_param.learning_cards
      (pullLoop s.sched_param.learning_cards s.new_cards s.learning_cards) with
  | (new2, l2) =>
    match l2.head? with
    | none => .error .other
    | some f =>
      let sorted := l2.mergeSort (fun a b => cmpV2 s.sched_param now a.card b.card ≠ .gt)
      match sorted.head? with
      | none => .error .other
      | some f2 =>
        .ok { s with
              new_cards := new2
              learning_cards :=
                if f2.zigen = f.zigen ∧ 1 < sorted.length then swap01 sorted else sorted }

/-- `SchedulerV2::new` (src/scheduler_v2.rs lines 186-202). -/
def SchedulerV2.new (now : ℤ) (pending : List VCard) (adept : Bool) : Except Panic StateV2 :=
  populateV2 now
    { new_cards := pending, learning_cards := []
      sched_param := if adept then .Adept else .Novice }

/-- `SchedulerV2::get_card` (src/scheduler_v2.rs lines 292-295): takes
`&mut self`, re-populates (and re-sorts) the pool, then returns the top
card; modelled as returning the card together with the mutated state. -/
def get_cardV2 (now : ℤ) (s : StateV2) : Except Panic (VCard × StateV2) :=
  match populateV2 now s with
  | .error e => .error e
  | .ok s' =>
    match s'.learning_cards.head? with
    | none => .error .other
    | some c => .ok (c, s')

/-- `SchedulerV2::rate_card` (src/scheduler_v2.rs lines 297-306): replace
the top card's state by its rated successor. -/
def rate_cardV2 (now : ℤ) (s : StateV2) (r : Rating) : Except Panic StateV2 :=
  match s.learning_cards with
  | [] => .error .other
  | c :: rest =>
    .ok { s with learning_cards := { c with card := c.card.rate s.sched_param r now } :: rest }

/-- `SchedulerV2::total_cards` (src/scheduler_v2.rs lines 319-321). -/
def total_cardsV2 (s : StateV2) : ℕ :=
  s.new_cards.length + s.learning_cards.length

/-- Run a sequence of ratings through the priority scheduler. -/
def runV2 (s : StateV2) : List (ℤ × Rating) → Except Panic StateV2
  | [] => .ok s
  | (now, r) :: rs =>
    match rate_cardV2 now s r with
    | .error e => .error e
    | .ok s' => runV2 s' rs

/-- Priority tier of the v2 comparator, highest priority = smallest: 0 for
overdue `Review` cards, 1 for `New` cards, 2 for `Learning` cards, 3 for
not-yet-due `Review` cards. -/
def tierOf (now : ℤ) : Card → ℕ
  | .New => 1
  | .Learning _ _ => 2
  | .Review _ _ _ _ due => if due < now then 0 else 3

/-- Within-tier sort key of the v2 comparator: due time for `Review`
cards, the computed next-appearance distance for `Learning` cards. -/
def valOf (p : ParamV2) : Card → ℤ
  | .New => 0
  | .Learning a _ => (distance p a : ℤ)
  | .Review _ _ _ _ due => due

/-- A v2 card state with a non-negative attempts counter. -/
def attemptsOK : Card → Bool
  | .Learning a _ => decide (0 ≤ a)
  | _ => true

/-- The easiness floor for v2 card states. -/
def efOKv2 : Card → Bool
  | .Review _ _ ef _ _ => decide ((13 : ℚ) / 10 ≤ ef)
  | _ => true

end ZTV2

namespace FSRS

open ZT (Rating)

noncomputable section

/-- FSRS weight constants (src/scheduler_fsrs.rs lines 49 and 61-80). -/
def W0 : ℝ := 0.2120
def W1 : ℝ := 1.2921
def W2 : ℝ := 2.3065
def W3 : ℝ := 8.2956
def W4 : ℝ := 6.4133
def W5 : ℝ := 0.8334
def W6 : ℝ := 3.0194
def W7 : ℝ := 0.0010
def W8 : ℝ := 1.8722
def W9 : ℝ := 0.1666
def W10 : ℝ := 0.7960
def W11 : ℝ := 1.4835
def W12 : ℝ := 0.0614
def W13 : ℝ := 0.2629
def W14 : ℝ := 1.6483
def W15 : ℝ := 0.6014
def W16 : ℝ := 1.8729
def W17 : ℝ := 0.5425
def W18 : ℝ := 0.0912
def W19 : ℝ := 0.1542
def W20 : ℝ := 11111

/-- Rust `Card` enum of the FSRS scheduler (src/scheduler_fsrs.rs); `f64`
and timestamps (in seconds) are modelled as `ℝ`. -/
inductive CardF
  | New
  | Review (stability : ℝ) (difficulty : ℝ) (last_reviewed : ℝ)

/-- `Card::get_retrievability` (src/scheduler_fsrs.rs lines 41-56). -/
def get_retrievability (now : ℝ) : CardF → ℝ
  | .New => 0
  | .Review stability _ last_reviewed =>
    let time := now - last_reviewed
    let factor := (0.9 : ℝ) ^ (-W20⁻¹) - 1
    (1 + factor * time / stability) ^ (-W20)

/-- The grade scalar (src/scheduler_fsrs.rs lines 88-93). -/
def grade : Rating → ℝ
  | .Again => 1
  | .Hard => 2
  | .Good => 3
  | .Easy => 4

/-- `chrono::Duration::num_hours` of `now - last_reviewed`: whole hours,
truncated toward zero. -/
def hoursSince (now lr : ℝ) : ℤ :=
  if 0 ≤ now - lr then ⌊(now - lr) / 3600⌋ else -⌊-(now - lr) / 3600⌋

open Classical in
/-- `Card::rate_card` (src/scheduler_fsrs.rs lines 58-169): the FSRS
short-term/long-term stability and difficulty update.  Note the initial
difficulty `W4 - exp(W5*(grade-1)) + 1` is applied without the clamp into
`[1, 10]` that the cited FSRS algorithm prescribes. -/
def CardF.rate (now : ℝ) (r : Rating) : CardF → CardF
  | .New =>
    let s0 : ℝ :=
      match r with
      | .Again => W0
      | .Hard => W1
      | .Good => W2
      | .Easy => W3
    let d0 := W4 - Real.exp (W5 * (grade r - 1)) + 1
    .Review s0 d0 now
  | .Review stability difficulty last_reviewed =>
    let g := grade r
    let retrievability := get_retrievability now (.Review stability difficulty last_reviewed)
    let diffculty_mean := W4 - Real.exp (W5 * (4 - 1)) + 1
    let difficulty_delta := -W6 * (g - 3)
    let new_difficulty := difficulty + difficulty_delta * (10 - difficulty) / 9
    let d' := W7 * diffculty_mean + (1 - W7) * new_difficulty
    if r ≠ .Again then
      let diff_factor := 11 - difficulty
      let scaled_s := stability ^ (-W9)
      let scaled_r := Real.exp (W10 * (1 - retrievability)) - 1
      let stability_inc := 1 + W15 * W16 * Real.exp W8 * diff_factor * scaled_s * scaled_r
      let new_stability :=
        if 20 ≤ hoursSince now last_reviewed then stability * stability_inc
        else
          let s := stability * Real.exp (W17 * (g - 3 + W18)) * stability ^ (-W19)
          if 3 ≤ g then max stability s else s
      .Review new_stability d' now
    else
      let diff_factor := difficulty ^ (-W12)
      let scaled_s := (stability + 1) ^ W13 - 1
      let scaled_r := Real.exp (W14 * (1 - retrievability))
      let new_stability := W11 * diff_factor * scaled_s * scaled_r
      .Review (min stability new_stability) d' now

/-- The spec's forgetting-curve formula (§4.4): `R(t) = (1 + F*t/S)^(-w)`
with `w = W20` and `F = 0.9^(-1/w) - 1`. -/
def R_spec (S t : ℝ) : ℝ :=
  (1 + ((0.9 : ℝ) ^ (-(1 / W20)) - 1) * t / S) ^ (-W20)

end

end FSRS

/-- Decidable equality for `Except`, needed to settle concrete scheduler
runs by `decide`. -/
instance exceptDecEq {ε α : Type} [DecidableEq ε] [DecidableEq α] :
    DecidableEq (Except ε α) := fun a b =>
  match a, b with
  | .ok x, .ok y =>
    if h : x = y then .isTrue (by rw [h]) else .isFalse (by simp [h])
  | .error x, .error y =>
    if h : x = y then .isTrue (by rw [h]) else .isFalse (by simp [h])
  | .ok _, .error _ => .isFalse (by simp)
  | .error _, .ok _ => .isFalse (by simp)

/-! ## Supporting lemmas about the interval scheduler -/

namespace ZT

theorem vecInsert_ok {l l' : List FlashCard} {i : ℕ} {a : FlashCard}
    (h : vecInsert l i a = .ok l') : i ≤ l.length ∧ l' = l.insertIdx i a := by
  unfold vecInsert at h
  split at h
  · exact ⟨by assumption, by injection h with h; exact h.symm⟩
  · exact absurd h (by simp)

theorem vecInsert_length {l l' : List FlashCard} {i : ℕ} {a : FlashCard}
    (h : vecInsert l i a = .ok l') : l'.length = l.length + 1 := by
  obtain ⟨hle, rfl⟩ := vecInsert_ok h
  exact List.length_insertIdx i l hle

theorem vecInsert_mem {l l' : List FlashCard} {i : ℕ} {a c : FlashCard}
    (h : vecInsert l i a = .ok l') (hc : c ∈ l') : c = a ∨ c ∈ l := by
  obtain ⟨hle, rfl⟩ := vecInsert_ok h
  exact (List.mem_insertIdx hle).mp hc

theorem vecInsert_min_ok (l : List FlashCard) (i : ℕ) (a : FlashCard) :
    ∃ l', vecInsert l (min i l.length) a = .ok l' := by
  unfold vecInsert
  rw [if_pos (min_le_right i l.length)]
  exact ⟨_, rfl⟩

theorem vecInsert_min_ne_idx (l : List FlashCard) (i : ℕ) (a : FlashCard) {e : Panic}
    (h : vecInsert l (min i l.length) a = .error e) : False := by
  unfold vecInsert at h
  rw [if_pos (min_le_right i l.length)] at h
  exact absurd h (by simp)

theorem populate_reviewing (p : Param) (s : State) :
    (populate p s).reviewing_cards = s.reviewing_cards := by
  unfold populate
  split <;> rfl

theorem populate_done (p : Param) (s : State) :
    (populate p s).done_learning = s.done_learning := by
  unfold populate
  split <;> rfl

theorem length_allCards (s : State) : (allCards s).length = total_cards s := by
  simp only [allCards, total_cards, List.length_append]

theorem populate_allCards_perm (p : Param) (s : State) :
    (allCards (populate p s)).Perm (allCards s) := by
  have key : ∀ (n L R : List FlashCard) (k : ℕ),
      (n.drop k ++ (n.take k ++ L) ++ R).Perm (n ++ L ++ R) := by
    intro n L R k
    refine List.Perm.append_right R ?_
    have h2 : n.drop k ++ (n.take k ++ L) = (n.drop k ++ n.take k) ++ L := by
      rw [List.append_assoc]
    rw [h2]
    have h4 := (@List.perm_append_comm _ (n.drop k) (n.take k)).append_right L
    rw [List.take_append_drop] at h4
    exact h4
  unfold populate
  split
  · exact key _ _ _ _
  · exact List.Perm.refl _

theorem populate_total (p : Param) (s : State) :
    total_cards (populate p s) = total_cards s := by
  rw [← length_allCards, ← length_allCards]
  exact (populate_allCards_perm p s).length_eq

theorem populate_mem (p : Param) (s : State) {c : FlashCard}
    (hc : c ∈ allCards (populate p s)) : c ∈ allCards s :=
  (populate_allCards_perm p s).mem_iff.mp hc

theorem populate_new_ne (p : Param) (s : State)
    (h : (populate p s).new_cards ≠ []) :
    p.learning_cards ≤ (populate p s).learning_cards.length := by
  simp only [populate] at h ⊢
  by_cases hcond : s.learning_cards.length < p.learning_cards ∧ s.new_cards ≠ []
  · rw [if_pos hcond] at h ⊢
    simp only [ne_eq, List.drop_eq_nil_iff, not_le] at h
    simp only [List.length_append, List.length_take]
    omega
  · rw [if_neg hcond] at h ⊢
    rcases not_and_or.mp hcond with h1 | h1
    · omega
    · simp only [ne_eq, not_not] at h1
      exact absurd h1 h

theorem populate_len_one {p : Param} {s : State} (h2 : 2 ≤ p.learning_cards)
    (hq1 : s.learning_cards.length = 1 → s.new_cards = [] → s.reviewing_cards = [])
    (hq0 : s.learning_cards.length = 0 → s.new_cards ≠ [] → s.reviewing_cards = [])
    (h : (populate p s).learning_cards.length = 1) :
    (populate p s).reviewing_cards = [] := by
  rw [populate_reviewing]
  simp only [populate] at h
  by_cases hcond : s.learning_cards.length < p.learning_cards ∧ s.new_cards ≠ []
  · rw [if_pos hcond] at h
    simp only [List.length_append, List.length_take] at h
    have hnew : 1 ≤ s.new_cards.length := by
      rcases hn : s.new_cards with _ | ⟨x, xs⟩
    -- the new stack is non-empty in this branch
      · exact absurd hn hcond.2
      · simp
    have hlen0 : s.learning_cards.length = 0 := by omega
    exact hq0 hlen0 hcond.2
  · rw [if_neg hcond] at h
    rcases not_and_or.mp hcond with h1 | h1
    · omega
    · simp only [ne_eq, not_not] at h1
      exact hq1 h h1

theorem countLearnable_err {p : Param} {l : List FlashCard} {e : Panic}
    (h : countLearnable p l = .error e) : e = .other := by
  induction l with
  | nil => exact absurd h (by simp [countLearnable])
  | cons c cs ih =>
    rcases hc : c.card with _ | ⟨a, lr⟩ | ⟨li, rep, ef, lr, due⟩ <;>
      simp only [countLearnable, hc] at h
    · rcases hr : countLearnable p cs with e2 | n <;> rw [hr] at h
      · injection h with h
        subst h
        exact ih hr
      · exact absurd h (by simp)
    · rcases hr : countLearnable p cs with e2 | n <;> rw [hr] at h
      · injection h with h
        subst h
        exact ih hr
      · exact absurd h (by simp)
    · injection h with h
      exact h.symm

theorem review_status_err {p : Param} {s : State} {e : Panic}
    (h : review_status p s = .error e) : e = .other := by
  unfold review_status at h
  by_cases hn : s.new_cards = []
  · rw [if_pos hn] at h
    rcases hr : countLearnable p s.learning_cards with e2 | n <;> rw [hr] at h
    · injection h with h
      subst h
      exact countLearnable_err hr
    · exact absurd h (by simp)
  · rw [if_neg hn] at h
    exact absurd h (by simp)

theorem review_status_ne_learn {p : Param} {s : State} {st : ReviewStatus}
    (h : review_status p s = .ok st) (hst : st ≠ .Learn) :
    s.reviewing_cards ≠ [] := by
  intro hnil
  unfold review_status at h
  have hrl : s.reviewing_cards.length = 0 := by rw [hnil]; rfl
  by_cases hn : s.new_cards = []
  · rw [if_pos hn] at h
    rcases hr : countLearnable p s.learning_cards with e2 | n <;> rw [hr] at h
    · exact absurd h (by simp)
    · injection h with h
      rw [if_neg (by omega)] at h
      exact hst h.symm
  · rw [if_neg hn] at h
    injection h with h
    rw [if_neg (by omega)] at h
    exact hst h.symm

theorem popReview_ok {s : State} {st : ReviewStatus} {c : FlashCard}
    {rest : List FlashCard} (h : popReview s st = .ok (c, rest)) :
    rest.length + 1 = s.reviewing_cards.length ∧
    c ∈ s.reviewing_cards ∧ ∀ x ∈ rest, x ∈ s.reviewing_cards := by
  unfold popReview at h
  by_cases hst : st = .Review
  · rw [if_pos hst] at h
    rcases hrev : s.reviewing_cards with _ | ⟨c0, cs⟩ <;> rw [hrev] at h
    · exact absurd h (by simp)
    · injection h with h
      injection h with h1 h2
      subst h1
      subst h2
      refine ⟨by simp, by simp, fun x hx => by simp [hx]⟩
  · rw [if_neg hst] at h
    rcases hl : s.reviewing_cards.getLast? with _ | c0 <;> rw [hl] at h
    · exact absurd h (by simp)
    · injection h with h
      injection h with h1 h2
      subst h1
      subst h2
      have hne : s.reviewing_cards ≠ [] := by
        intro hnil
        rw [hnil] at hl
        simp at hl
      have hpos : 1 ≤ s.reviewing_cards.length := List.length_pos.mpr hne
      refine ⟨?_, ?_, ?_⟩
      · rw [List.length_dropLast]
        omega
      · exact List.mem_of_getLast?_eq_some hl
      · intro x hx
        exact List.dropLast_subset _ hx

theorem allMastered_err {p : Param} {l : List FlashCard} {e : Panic}
    (h : allMastered p l = .error e) : e = .other := by
  induction l with
  | nil => exact absurd h (by simp [allMastered])
  | cons c cs ih =>
    rcases hc : c.card with _ | ⟨a, lr⟩ | _ <;> simp only [allMastered, hc] at h
    · injection h with h
      exact h.symm
    · by_cases hm : (p.max_learning_attempts : ℤ) ≤ a
      · rw [if_pos hm] at h
        exact ih h
      · rw [if_neg hm] at h
        exact absurd h (by simp)
    · injection h with h
      exact h.symm

theorem flushCards_ok_length {now : ℤ} {cs rev rev' : List FlashCard}
    (h : flushCards now cs rev = .ok rev') :
    rev'.length = cs.length + rev.length := by
  induction cs generalizing rev with
  | nil =>
    unfold flushCards at h
    injection h with h
    subst h
    simp
  | cons c cs ih =>
    rcases hc : c.card with _ | ⟨a, lr⟩ | _ <;> simp only [flushCards, hc] at h
    · exact absurd h (by simp)
    · rcases hv : vecInsert rev (min (usizeOfInt a * 13 / 10) rev.length)
          { c with card := promoted now } with e | rev2 <;> rw [hv] at h
      · exact absurd h (by simp)
      · have h2 := ih h
        have h3 := vecInsert_length hv
        simp only [List.length_cons]
        omega
    · exact absurd h (by simp)

theorem flushCards_ok_mem {now : ℤ} {cs rev rev' : List FlashCard}
    (h : flushCards now cs rev = .ok rev') {c : FlashCard} (hc : c ∈ rev') :
    c ∈ rev ∨ c.card = promoted now := by
  induction cs generalizing rev with
  | nil =>
    unfold flushCards at h
    injection h with h
    subst h
    exact Or.inl hc
  | cons c0 cs ih =>
    rcases hcc : c0.card with _ | ⟨a, lr⟩ | _ <;> simp only [flushCards, hcc] at h
    · exact absurd h (by simp)
    · rcases hv : vecInsert rev (min (usizeOfInt a * 13 / 10) rev.length)
          { c0 with card := promoted now } with e | rev2 <;> rw [hv] at h
      · exact absurd h (by simp)
      · rcases ih h with h2 | h2
        · rcases vecInsert_mem hv h2 with h3 | h3
          · subst h3
            exact Or.inr rfl
          · exact Or.inl h3
        · exact Or.inr h2
    · exact absurd h (by simp)

theorem flushCards_err {now : ℤ} {cs rev : List FlashCard} {e : Panic}
    (h : flushCards now cs rev = .error e) : e = .other := by
  induction cs generalizing rev with
  | nil => exact absurd h (by simp [flushCards])
  | cons c cs ih =>
    rcases hc : c.card with _ | ⟨a, lr⟩ | _ <;> simp only [flushCards, hc] at h
    · injection h with h
      exact h.symm
    · rcases hv : vecInsert rev (min (usizeOfInt a * 13 / 10) rev.length)
          { c with card := promoted now } with e2 | rev2 <;> rw [hv] at h
      · exact absurd (vecInsert_min_ne_idx _ _ _ hv) (by simp)
      · exact ih h
    · injection h with h
      exact h.symm

theorem learnCompute_ok {p : Param} {now : ℤ} {r : Rating} {c c' : Card}
    {b : Bool} {i : ℕ} (h : learnCompute p now r c = .ok (c', b, i)) :
    ∃ a, c' = .Learning a now := by
  rcases c with _ | ⟨a, lr⟩ | _ <;> simp only [learnCompute] at h
  · rcases ht : tblE p.intervals_s 0 with e2 | v <;> rw [ht] at h
    · exact absurd h (by simp)
    · injection h with h
      injection h with h1 h2
      exact ⟨0, h1.symm⟩
  · by_cases h1 : (p.max_learning_attempts : ℤ) ≤
        (if r = .Again then min (a - 1) 0 else max (a + 1) 0)
    · rw [if_pos h1] at h
      injection h with h
      injection h with h1 h2
      exact ⟨_, h1.symm⟩
    · rw [if_neg h1] at h
      by_cases h2 : (if r = .Again then min (a - 1) 0 else max (a + 1) 0) < 0
      · rw [if_pos h2] at h
        rcases ht : tblE p.intervals_f
            (min (-(if r = .Again then min (a - 1) 0 else max (a + 1) 0)).toNat
              (p.intervals_f.length - 1)) with e2 | v <;> rw [ht] at h
        · exact absurd h (by simp)
        · injection h with h
          injection h with h1 h2
          exact ⟨_, h1.symm⟩
      · rw [if_neg h2] at h
        rcases ht : tblE p.intervals_s
            (min (if r = .Again then min (a - 1) 0 else max (a + 1) 0).toNat
              (p.intervals_s.length - 1)) with e2 | v <;> rw [ht] at h
        · exact absurd h (by simp)
        · injection h with h
          injection h with h1 h2
          exact ⟨_, h1.symm⟩
  · exact absurd h (by simp)

theorem tblE_of_lt {l : List ℕ} {i : ℕ} (hi : i < l.length) :
    ∃ v, tblE l i = .ok v := by
  unfold tblE
  rw [dif_pos hi]
  exact ⟨_, rfl⟩

theorem learnCompute_err {p : Param} {now : ℤ} {r : Rating} {c : Card} {e : Panic}
    (hS : p.intervals_s ≠ []) (hF : p.intervals_f ≠ [])
    (h : learnCompute p now r c = .error e) : e = .other := by
  have hSlen : 0 < p.intervals_s.length := List.length_pos.mpr hS
  have hFlen : 0 < p.intervals_f.length := List.length_pos.mpr hF
  rcases c with _ | ⟨a, lr⟩ | _ <;> simp only [learnCompute] at h
  · rcases ht : tblE p.intervals_s 0 with e2 | v <;> rw [ht] at h
    · obtain ⟨v, hv⟩ := tblE_of_lt hSlen
      rw [hv] at ht
      exact absurd ht (by simp)
    · exact absurd h (by simp)
  · by_cases h1 : (p.max_learning_attempts : ℤ) ≤
        (if r = .Again then min (a - 1) 0 else max (a + 1) 0)
    · rw [if_pos h1] at h
      exact absurd h (by simp)
    · rw [if_neg h1] at h
      by_cases h2 : (if r = .Again then min (a - 1) 0 else max (a + 1) 0) < 0
      · rw [if_pos h2] at h
        rcases ht : tblE p.intervals_f
            (min (-(if r = .Again then min (a - 1) 0 else max (a + 1) 0)).toNat
              (p.intervals_f.length - 1)) with e2 | v <;> rw [ht] at h
        · obtain ⟨v, hv⟩ := tblE_of_lt
            (show min (-(if r = .Again then min (a - 1) 0 else max (a + 1) 0)).toNat
              (p.intervals_f.length - 1) < p.intervals_f.length by omega)
          rw [hv] at ht
          exact absurd ht (by simp)
        · exact absurd h (by simp)
      · rw [if_neg h2] at h
        rcases ht : tblE p.intervals_s
            (min (if r = .Again then min (a - 1) 0 else max (a + 1) 0).toNat
              (p.intervals_s.length - 1)) with e2 | v <;> rw [ht] at h
        · obtain ⟨v, hv⟩ := tblE_of_lt
            (show min (if r = .Again then min (a - 1) 0 else max (a + 1) 0).toNat
              (p.intervals_s.length - 1) < p.intervals_s.length by omega)
          rw [hv] at ht
          exact absurd ht (by simp)
        · exact absurd h (by simp)
  · injection h with h
    exact h.symm

theorem efUpdate_ge (ef : ℚ) (r : Rating) : (13 : ℚ) / 10 ≤ efUpdate ef r :=
  le_max_right _ _

theorem efOK_promoted (now : ℤ) : efOK (promoted now) = true := by
  simp only [efOK, promoted, decide_eq_true_eq]
  norm_num

theorem reviewUpdate_fst_efOK (now : ℤ) (r : Rating) (li : ℚ) (rep : ℕ) (ef : ℚ) :
    efOK (reviewUpdate now r li rep ef).1 = true := by
  unfold reviewUpdate
  split
  · simp only [efOK, decide_eq_true_eq]
    exact efUpdate_ge ef r
  · simp only [efOK, decide_eq_true_eq]
    exact efUpdate_ge ef r

theorem mem_allCards_new {s : State} {c : FlashCard} (h : c ∈ s.new_cards) :
    c ∈ allCards s := by
  simp only [allCards, List.mem_append]
  exact Or.inl (Or.inl h)

theorem mem_allCards_learning {s : State} {c : FlashCard} (h : c ∈ s.learning_cards) :
    c ∈ allCards s := by
  simp only [allCards, List.mem_append]
  exact Or.inl (Or.inr h)

theorem mem_allCards_reviewing {s : State} {c : FlashCard} (h : c ∈ s.reviewing_cards) :
    c ∈ allCards s := by
  simp only [allCards, List.mem_append]
  exact Or.inr h

theorem reviewStep_ok_total_mem {p : Param} {now : ℤ} {s : State} {r : Rating}
    {st : ReviewStatus} {s' : State} (hok : reviewStep p now s r st = .ok s') :
    total_cards s' = total_cards s ∧
    ∀ c ∈ allCards s', c ∈ allCards s ∨ efOK c.card = true := by
  rcases hpop : popReview s st with e | ⟨card, restRev⟩
  · simp only [reviewStep, hpop] at hok
    exact absurd hok (by simp)
  simp only [reviewStep, hpop] at hok
  obtain ⟨hlen, hcmem, hrestmem⟩ := popReview_ok hpop
  rcases hcc : card.card with _ | _ | ⟨li, rep, ef, lr, due⟩ <;> simp only [hcc] at hok
  · exact absurd hok (by simp)
  · exact absurd hok (by simp)
  by_cases hcond : ((reviewUpdate now r li rep ef).2.2 = true ∧ s.learning_cards ≠ [])
  · rw [if_pos hcond] at hok
    rcases htb : tblE p.intervals_f 0 with e | f0 <;> simp only [htb] at hok
    · exact absurd hok (by simp)
    rcases hv : vecInsert s.learning_cards f0 { card with card := .Learning 1 now } with
      e | nl <;> simp only [hv] at hok
    · exact absurd hok (by simp)
    injection hok with hok
    subst hok
    constructor
    · rw [populate_total]
      have h1 := vecInsert_length hv
      simp only [total_cards] at *
      omega
    · intro c hc
      have hc2 := populate_mem _ _ hc
      simp only [allCards, List.mem_append] at hc2
      rcases hc2 with (h1 | h1) | h1
      · exact Or.inl (mem_allCards_new h1)
      · rcases vecInsert_mem hv h1 with h2 | h2
        · subst h2
          exact Or.inr rfl
        · exact Or.inl (mem_allCards_learning h2)
      · exact Or.inl (mem_allCards_reviewing (hrestmem _ h1))
  · rw [if_neg hcond] at hok
    rcases hv : vecInsert restRev
        (min (reviewUpdate now r li rep ef).2.1 restRev.length)
        { card with card := (reviewUpdate now r li rep ef).1 } with e | nr <;>
      simp only [hv] at hok
    · exact absurd hok (by simp)
    injection hok with hok
    subst hok
    constructor
    · rw [populate_total]
      have h1 := vecInsert_length hv
      simp only [total_cards] at *
      omega
    · intro c hc
      have hc2 := populate_mem _ _ hc
      simp only [allCards, List.mem_append] at hc2
      rcases hc2 with (h1 | h1) | h1
      · exact Or.inl (mem_allCards_new h1)
      · exact Or.inl (mem_allCards_learning h1)
      · rcases vecInsert_mem hv h1 with h2 | h2
        · subst h2
          exact Or.inr (reviewUpdate_fst_efOK now r li rep ef)
        · exact Or.inl (mem_allCards_reviewing (hrestmem _ h2))

theorem learnStep_ok_total_mem {p : Param} {now : ℤ} {s : State} {r : Rating}
    {s' : State} (hok : learnStep p now s r = .ok s') :
    total_cards s' = total_cards s ∧
    ∀ c ∈ allCards s', c ∈ allCards s ∨ efOK c.card = true := by
  rcases hl : s.learning_cards with _ | ⟨lc, rest⟩
  · simp only [learnStep, hl] at hok
    exact absurd hok (by simp)
  simp only [learnStep, hl] at hok
  rcases hlc : learnCompute p now r lc.card with e | ⟨c2, tr, interval⟩ <;>
    simp only [hlc] at hok
  · exact absurd hok (by simp)
  obtain ⟨a2, ha2⟩ := learnCompute_ok hlc
  have hslen : s.learning_cards.length = rest.length + 1 := by rw [hl]; rfl
  have hmemrest : ∀ x ∈ rest, x ∈ s.learning_cards := by
    intro x hx
    rw [hl]
    exact List.mem_cons_of_mem _ hx
  have heflc : efOK ({ lc with card := c2 } : FlashCard).card = true := by
    rw [ha2]
    rfl
  rcases tr with _ | _
  · -- to_review = false: clamped reinsertion into the learning queue
    rw [if_pos rfl] at hok
    rcases hv : vecInsert rest (min interval rest.length) { lc with card := c2 } with
      e | nl <;> simp only [hv] at hok
    · exact absurd hok (by simp)
    injection hok with hok
    subst hok
    constructor
    · rw [populate_total]
      have h1 := vecInsert_length hv
      simp only [total_cards] at *
      omega
    · intro c hc
      have hcm := populate_mem _ _ hc
      simp only [allCards, List.mem_append] at hcm
      rcases hcm with (h1 | h1) | h1
      · exact Or.inl (mem_allCards_new h1)
      · rcases vecInsert_mem hv h1 with h2 | h2
        · subst h2
          exact Or.inr heflc
        · exact Or.inl (mem_allCards_learning (hmemrest _ h2))
      · exact Or.inl (mem_allCards_reviewing h1)
  · -- to_review = true
    rw [if_neg (by simp)] at hok
    by_cases hcond : s.new_cards = [] ∧ rest.length ≤ p.learning_cards
    · rw [if_pos hcond] at hok
      rcases ham : allMastered p (rest ++ [{ lc with card := c2 }]) with e | b
      · simp only [ham] at hok
        exact absurd hok (by simp)
      rcases b with _ | _
      · -- not all mastered: the promoted card is held at the queue tail
        simp only [ham] at hok
        injection hok with hok
        subst hok
        constructor
        · rw [populate_total]
          simp only [total_cards, List.length_append, List.length_cons,
            List.length_nil] at *
          omega
        · intro c hc
          have hcm := populate_mem _ _ hc
          simp only [allCards, List.mem_append, List.mem_cons, List.not_mem_nil,
            or_false] at hcm
          rcases hcm with (h1 | h1 | h1) | h1
          · exact Or.inl (mem_allCards_new h1)
          · exact Or.inl (mem_allCards_learning (hmemrest _ h1))
          · subst h1
            exact Or.inr heflc
          · exact Or.inl (mem_allCards_reviewing h1)
      · -- all mastered: mass flush into the review queue
        simp only [ham] at hok
        rcases hf : flushCards now (rest ++ [{ lc with card := c2 }]) s.reviewing_cards
          with e | nr <;> simp only [hf] at hok
        · exact absurd hok (by simp)
        injection hok with hok
        subst hok
        have hflen := flushCards_ok_length hf
        constructor
        · rw [populate_total]
          simp only [total_cards, List.length_append, List.length_cons,
            List.length_nil] at *
          omega
        · intro c hc
          have hcm := populate_mem _ _ hc
          simp only [allCards, List.mem_append, List.not_mem_nil, or_false] at hcm
          rcases hcm with h1 | h1
          · exact Or.inl (mem_allCards_new h1)
          · rcases flushCards_ok_mem hf h1 with h2 | h2
            · exact Or.inl (mem_allCards_reviewing h2)
            · right
              rw [h2]
              exact efOK_promoted now
    · rw [if_neg hcond] at hok
      by_cases hu : interval = USIZE_MAX
      · rw [if_pos hu] at hok
        rcases hv : vecInsert s.reviewing_cards (min 1 s.reviewing_cards.length)
            { lc with card := promoted now } with e | nr <;> simp only [hv] at hok
        · exact absurd hok (by simp)
        injection hok with hok
        subst hok
        constructor
        · rw [populate_total]
          have h1 := vecInsert_length hv
          simp only [total_cards] at *
          omega
        · intro c hc
          have hcm := populate_mem _ _ hc
          simp only [allCards, List.mem_append] at hcm
          rcases hcm with (h1 | h1) | h1
          · exact Or.inl (mem_allCards_new h1)
          · exact Or.inl (mem_allCards_learning (hmemrest _ h1))
          · rcases vecInsert_mem hv h1 with h2 | h2
            · subst h2
              right
              exact efOK_promoted now
            · exact Or.inl (mem_allCards_reviewing h2)
      · rw [if_neg hu] at hok
        rcases hv : vecInsert s.reviewing_cards (min interval s.reviewing_cards.length)
            { lc with card := c2 } with e | nr <;> simp only [hv] at hok
        · exact absurd hok (by simp)
        injection hok with hok
        subst hok
        constructor
        · rw [populate_total]
          have h1 := vecInsert_length hv
          simp only [total_cards] at *
          omega
        · intro c hc
          have hcm := populate_mem _ _ hc
          simp only [allCards, List.mem_append] at hcm
          rcases hcm with (h1 | h1) | h1
          · exact Or.inl (mem_allCards_new h1)
          · exact Or.inl (mem_allCards_learning (hmemrest _ h1))
          · rcases vecInsert_mem hv h1 with h2 | h2
            · subst h2
              exact Or.inr heflc
            · exact Or.inl (mem_allCards_reviewing h2)

theorem rate_card_ok_total_mem {p : Param} {now : ℤ} {s : State} {r : Rating}
    {s' : State} (hok : rate_card p now s r = .ok s') :
    total_cards s' = total_cards s ∧
    ∀ c ∈ allCards s', c ∈ allCards s ∨ efOK c.card = true := by
  unfold rate_card at hok
  rcases hrs : review_status p s with e | st <;> simp only [hrs] at hok
  · exact absurd hok (by simp)
  by_cases hst : st = .Learn
  · rw [if_neg (by simp [hst])] at hok
    exact learnStep_ok_total_mem hok
  · rw [if_pos (by simp [hst])] at hok
    exact reviewStep_ok_total_mem hok

theorem run_ok_total_mem {p : Param} {s : State} {rs : List (ℤ × Rating)} {s' : State}
    (hok : run p s rs = .ok s') :
    total_cards s' = total_cards s ∧
    ∀ c ∈ allCards s', c ∈ allCards s ∨ efOK c.card = true := by
  induction rs generalizing s with
  | nil =>
    unfold run at hok
    injection hok with hok
    subst hok
    exact ⟨rfl, fun c hc => Or.inl hc⟩
  | cons pr rs ih =>
    rcases pr with ⟨now, r⟩
    unfold run at hok
    rcases hr : rate_card p now s r with e | s1 <;> simp only [hr] at hok
    · exact absurd hok (by simp)
    obtain ⟨ht1, hm1⟩ := rate_card_ok_total_mem hr
    obtain ⟨ht2, hm2⟩ := ih hok
    refine ⟨by omega, ?_⟩
    intro c hc
    rcases hm2 c hc with h1 | h1
    · exact hm1 c h1
    · exact Or.inr h1

theorem tblE_ok_val {l : List ℕ} {i v : ℕ} (h : tblE l i = .ok v) :
    v = l.getD i 0 := by
  unfold tblE at h
  split at h
  · rename_i hlt
    injection h with h
    rw [← h, List.getD_eq_getElem?_getD, List.getElem?_eq_getElem hlt]
    rfl
  · exact absurd h (by simp)

theorem vecInsert_err {l : List FlashCard} {i : ℕ} {a : FlashCard} {e : Panic}
    (h : vecInsert l i a = .error e) : l.length < i := by
  unfold vecInsert at h
  split at h
  · exact absurd h (by simp)
  · omega

theorem inv_new (p : Param) (hLC : 2 ≤ p.learning_cards) (pending : List FlashCard) :
    Inv p (Scheduler.new p pending) := by
  unfold Scheduler.new
  constructor
  · exact populate_new_ne p _
  · intro h1
    refine populate_len_one hLC ?_ ?_ h1
    · intro h2
      simp at h2
    · intro _ _
      rfl

theorem learnStep_resOK {p : Param} {now : ℤ} {s : State} {r : Rating}
    (hS : p.intervals_s ≠ []) (hF : p.intervals_f ≠ [])
    (hLC : 2 ≤ p.learning_cards) (hInv : Inv p s) :
    ResOK p (learnStep p now s r) := by
  rcases hl : s.learning_cards with _ | ⟨lc, rest⟩
  · simp only [learnStep, hl]
    rfl
  simp only [learnStep, hl]
  rcases hlc : learnCompute p now r lc.card with e | ⟨c2, tr, interval⟩ <;>
    simp only [hlc]
  · exact learnCompute_err hS hF hlc
  have hslen : s.learning_cards.length = rest.length + 1 := by
    rw [hl]
    rfl
  rcases tr with _ | _
  · -- reinsertion into the learning queue at a clamped offset
    rw [if_pos rfl]
    rcases hv : vecInsert rest (min interval rest.length) { lc with card := c2 } with
      e | nl <;> simp only [hv]
    · exact (vecInsert_min_ne_idx _ _ _ hv).elim
    show Inv p (populate p _)
    have hnlen := vecInsert_length hv
    constructor
    · exact populate_new_ne p _
    · intro hone
      refine populate_len_one hLC ?_ ?_ hone
      · intro h1 h2
        have h1a : nl.length = 1 := h1
        exact hInv.2 (by omega)
      · intro h1 h2
        have h1a : nl.length = 0 := h1
        exact absurd h1a (by omega)
  · rw [if_neg (by simp)]
    by_cases hcond : s.new_cards = [] ∧ rest.length ≤ p.learning_cards
    · rw [if_pos hcond]
      rcases ham : allMastered p (rest ++ [{ lc with card := c2 }]) with e | b
      · simp only [ham]
        exact allMastered_err ham
      rcases b with _ | _
      · -- hold: the mastered card waits at the tail of the learning queue
        simp only [ham]
        show Inv p (populate p _)
        constructor
        · exact populate_new_ne p _
        · intro hone
          refine populate_len_one hLC ?_ ?_ hone
          · intro h1 h2
            have h1a : (rest ++ [{ lc with card := c2 }]).length = 1 := h1
            simp only [List.length_append, List.length_cons, List.length_nil] at h1a
            exact hInv.2 (by omega)
          · intro h1 h2
            exact absurd hcond.1 h2
      · -- flush: the whole learning queue moves to the review queue
        simp only [ham]
        rcases hf : flushCards now (rest ++ [{ lc with card := c2 }]) s.reviewing_cards
          with e | nr <;> simp only [hf]
        · exact flushCards_err hf
        show Inv p (populate p _)
        constructor
        · exact populate_new_ne p _
        · intro hone
          refine populate_len_one hLC ?_ ?_ hone
          · intro h1 h2
            have h1a : ([] : List FlashCard).length = 1 := h1
            simp at h1a
          · intro h1 h2
            exact absurd hcond.1 h2
    · rw [if_neg hcond]
      by_cases hu : interval = USIZE_MAX
      · rw [if_pos hu]
        rcases hv : vecInsert s.reviewing_cards (min 1 s.reviewing_cards.length)
            { lc with card := promoted now } with e | nr <;> simp only [hv]
        · exact (vecInsert_min_ne_idx _ _ _ hv).elim
        show Inv p (populate p _)
        constructor
        · exact populate_new_ne p _
        · intro hone
          refine populate_len_one hLC ?_ ?_ hone
          · intro h1 h2
            have h1a : rest.length = 1 := h1
            have h2a : s.new_cards = [] := h2
            rcases not_and_or.mp hcond with h3 | h3
            · exact absurd h2a h3
            · exact absurd h1a (by omega)
          · intro h1 h2
            have h1a : rest.length = 0 := h1
            have h2a : s.new_cards ≠ [] := h2
            have h4 := hInv.1 h2a
            exact absurd h4 (by omega)
      · rw [if_neg hu]
        rcases hv : vecInsert s.reviewing_cards (min interval s.reviewing_cards.length)
            { lc with card := c2 } with e | nr <;> simp only [hv]
        · exact (vecInsert_min_ne_idx _ _ _ hv).elim
        show Inv p (populate p _)
        constructor
        · exact populate_new_ne p _
        · intro hone
          refine populate_len_one hLC ?_ ?_ hone
          · intro h1 h2
            have h1a : rest.length = 1 := h1
            have h2a : s.new_cards = [] := h2
            rcases not_and_or.mp hcond with h3 | h3
            · exact absurd h2a h3
            · exact absurd h1a (by omega)
          · intro h1 h2
            have h1a : rest.length = 0 := h1
            have h2a : s.new_cards ≠ [] := h2
            have h4 := hInv.1 h2a
            exact absurd h4 (by omega)

theorem popReview_err {s : State} {st : ReviewStatus} {e : Panic}
    (h : popReview s st = .error e) : e = .other := by
  unfold popReview at h
  by_cases hst : st = .Review
  · rw [if_pos hst] at h
    rcases hrev : s.reviewing_cards with _ | ⟨c0, cs⟩ <;> rw [hrev] at h
    · injection h with h
      exact h.symm
    · exact absurd h (by simp)
  · rw [if_neg hst] at h
    rcases hl : s.reviewing_cards.getLast? with _ | c0 <;> rw [hl] at h
    · injection h with h
      exact h.symm
    · exact absurd h (by simp)

theorem reviewStep_resOK {p : Param} {now : ℤ} {s : State} {r : Rating}
    {st : ReviewStatus}
    (hF : p.intervals_f ≠ []) (hF0 : p.intervals_f.getD 0 0 ≤ 2)
    (hLC : 2 ≤ p.learning_cards) (hInv : Inv p s)
    (hrev : s.reviewing_cards ≠ []) :
    ResOK p (reviewStep p now s r st) := by
  rcases hp : popReview s st with e | ⟨card, restRev⟩
  · simp only [reviewStep, hp]
    exact popReview_err hp
  simp only [reviewStep, hp]
  rcases hcc : card.card with _ | ⟨a, lr⟩ | ⟨li, rep, ef, lr, due⟩ <;> simp only [hcc]
  · rfl
  · rfl
  by_cases hcond : (reviewUpdate now r li rep ef).2.2 = true ∧ s.learning_cards ≠ []
  · -- demotion: the failed card re-enters the learning queue
    rw [if_pos hcond]
    rcases ht : tblE p.intervals_f 0 with e | f0 <;> simp only [ht]
    · obtain ⟨v, hv⟩ := tblE_of_lt (List.length_pos.mpr hF)
      rw [ht] at hv
      exact absurd hv (by simp)
    have hf0 : f0 ≤ 2 := by
      rw [tblE_ok_val ht]
      exact hF0
    have hlen2 : 2 ≤ s.learning_cards.length := by
      have h1 : 1 ≤ s.learning_cards.length := List.length_pos.mpr hcond.2
      by_contra hlt
      exact hrev (hInv.2 (by omega))
    rcases hv : vecInsert s.learning_cards f0 { card with card := .Learning 1 now } with
      e | nl <;> simp only [hv]
    · have := vecInsert_err hv
      omega
    show Inv p (populate p _)
    have hnlen := vecInsert_length hv
    constructor
    · exact populate_new_ne p _
    · intro hone
      refine populate_len_one hLC ?_ ?_ hone
      · intro h1 h2
        have h1a : nl.length = 1 := h1
        exact absurd h1a (by omega)
      · intro h1 h2
        have h1a : nl.length = 0 := h1
        exact absurd h1a (by omega)
  · -- reinsertion into the review queue at a clamped offset
    rw [if_neg hcond]
    rcases hv : vecInsert restRev (min (reviewUpdate now r li rep ef).2.1 restRev.length)
        { card with card := (reviewUpdate now r li rep ef).1 } with e | nr <;> simp only [hv]
    · exact (vecInsert_min_ne_idx _ _ _ hv).elim
    show Inv p (populate p _)
    have hnlen := vecInsert_length hv
    have hplen := (popReview_ok hp).1
    constructor
    · exact populate_new_ne p _
    · intro hone
      refine populate_len_one hLC ?_ ?_ hone
      · intro h1 h2
        have h1a : s.learning_cards.length = 1 := h1
        exact absurd (hInv.2 h1a) hrev
      · intro h1 h2
        have h2a : s.new_cards ≠ [] := h2
        have h4 := hInv.1 h2a
        have h1a : s.learning_cards.length = 0 := h1
        exact absurd h4 (by omega)

theorem rate_card_resOK {p : Param} {now : ℤ} {s : State} {r : Rating}
    (hS : p.intervals_s ≠ []) (hF : p.intervals_f ≠ [])
    (hF0 : p.intervals_f.getD 0 0 ≤ 2)
    (hLC : 2 ≤ p.learning_cards) (hInv : Inv p s) :
    ResOK p (rate_card p now s r) := by
  unfold rate_card
  rcases hst : review_status p s with e | st <;> simp only [hst]
  · exact review_status_err hst
  by_cases hne : st = .Learn
  · rw [if_neg (by simp [hne])]
    exact learnStep_resOK hS hF hLC hInv
  · rw [if_pos hne]
    exact reviewStep_resOK hF hF0 hLC hInv (review_status_ne_learn hst hne)

theorem reachable_inv {p : Param} {s : State}
    (hS : p.intervals_s ≠ []) (hF : p.intervals_f ≠ [])
    (hF0 : p.intervals_f.getD 0 0 ≤ 2)
    (hLC : 2 ≤ p.learning_cards) (h : Reachable p s) : Inv p s := by
  induction h with
  | base pending => exact inv_new p hLC pending
  | step hr hok ih =>
    rename_i s0 s1 now r
    have hres := @rate_card_resOK p now s0 r hS hF hF0 hLC ih
    rw [hok] at hres
    exact hres

end ZT

/-! ## Supporting lemmas about the priority (v2) scheduler -/

namespace ZTV2

theorem pullLoop_eq (lc : ℕ) (new : List VCard) :
    ∀ learning, ∃ k, pullLoop lc new learning = (new.drop k, learning ++ new.take k) := by
  induction new with
  | nil =>
    intro learning
    exact ⟨0, by simp [pullLoop]⟩
  | cons n ns ih =>
    intro learning
    unfold pullLoop
    by_cases hc : learning.length < lc
    · rw [if_pos hc]
      obtain ⟨k, hk⟩ := ih (learning ++ [n])
      refine ⟨k + 1, ?_⟩
      rw [hk]
      simp [List.append_assoc]
    · rw [if_neg hc]
      exact ⟨0, by simp⟩

theorem swap01_perm (l : List VCard) : (swap01 l).Perm l := by
  rcases l with _ | ⟨a, _ | ⟨b, t⟩⟩
  · exact List.Perm.refl _
  · exact List.Perm.refl _
  · exact List.Perm.swap a b t

theorem extraPull_spec (now : ℤ) (lc : ℕ) (q : List VCard × List VCard) :
    (extraPull now lc q).2 ++ (extraPull now lc q).1 = q.2 ++ q.1 ∧
    q.2.length ≤ (extraPull now lc q).2.length := by
  obtain ⟨q1, q2⟩ := q
  unfold extraPull
  by_cases h0 : 0 < (q1, q2).1.length
  · rw [if_pos h0]
    by_cases h1 : ((q1, q2).2.filter (fun c => c.card.needs_learning now)).length < lc
    · rw [if_pos h1]
      rcases q1 with _ | ⟨n, ns⟩
      · exact ⟨rfl, le_refl _⟩
      · constructor
        · simp [List.append_assoc]
        · simp
    · rw [if_neg h1]
      exact ⟨rfl, le_refl _⟩
  · rw [if_neg h0]
    exact ⟨rfl, le_refl _⟩

theorem populateV2_ok_facts {now : ℤ} {s s' : StateV2}
    (h : populateV2 now s = .ok s') :
    (s'.learning_cards ++ s'.new_cards).Perm (s.learning_cards ++ s.new_cards) ∧
    s.learning_cards.length ≤ s'.learning_cards.length ∧
    s'.sched_param = s.sched_param := by
  obtain ⟨k, hk⟩ := pullLoop_eq s.sched_param.learning_cards s.new_cards s.learning_cards
  unfold populateV2 at h
  rw [hk] at h
  rcases hq : extraPull now s.sched_param.learning_cards
      (s.new_cards.drop k, s.learning_cards ++ s.new_cards.take k) with ⟨qnew, qlearn⟩
  simp only [hq] at h
  have hspec := extraPull_spec now s.sched_param.learning_cards
      (s.new_cards.drop k, s.learning_cards ++ s.new_cards.take k)
  simp only [hq] at hspec
  obtain ⟨hqapp, hqlen⟩ := hspec
  have hbase : (s.learning_cards ++ s.new_cards.take k) ++ s.new_cards.drop k =
      s.learning_cards ++ s.new_cards := by
    rw [List.append_assoc, List.take_append_drop]
  rcases hh : qlearn.head? with _ | f <;> rw [hh] at h
  · exact absurd h (by simp)
  rcases hh2 : (qlearn.mergeSort
      (fun a b => cmpV2 s.sched_param now a.card b.card ≠ .gt)).head? with _ | f2 <;>
    rw [hh2] at h
  · exact absurd h (by simp)
  injection h with h
  subst h
  have hsortperm : (qlearn.mergeSort
      (fun a b => cmpV2 s.sched_param now a.card b.card ≠ .gt)).Perm qlearn :=
    List.mergeSort_perm qlearn _
  have hfinperm : (if f2.zigen = f.zigen ∧ 1 < (qlearn.mergeSort
      (fun a b => cmpV2 s.sched_param now a.card b.card ≠ .gt)).length then
        swap01 (qlearn.mergeSort (fun a b => cmpV2 s.sched_param now a.card b.card ≠ .gt))
      else qlearn.mergeSort
        (fun a b => cmpV2 s.sched_param now a.card b.card ≠ .gt)).Perm qlearn := by
    split
    · exact (swap01_perm _).trans hsortperm
    · exact hsortperm
  rw [← hqapp] at hbase
  refine ⟨?_, ?_, rfl⟩
  · refine (List.Perm.append_right qnew hfinperm).trans ?_
    rw [hbase]
  · have h1 := hfinperm.length_eq
    simp only [List.length_append] at hqlen
    simp only []
    omega

theorem extraPull_prefix (now : ℤ) (lc : ℕ) (q : List VCard × List VCard) :
    ∃ t, (extraPull now lc q).2 = q.2 ++ t := by
  obtain ⟨q1, q2⟩ := q
  unfold extraPull
  by_cases h0 : 0 < (q1, q2).1.length
  · rw [if_pos h0]
    by_cases h1 : ((q1, q2).2.filter (fun c => c.card.needs_learning now)).length < lc
    · rw [if_pos h1]
      rcases q1 with _ | ⟨n, ns⟩
      · exact ⟨[], by simp⟩
      · exact ⟨[n], rfl⟩
    · rw [if_neg h1]
      exact ⟨[], by simp⟩
  · rw [if_neg h0]
    exact ⟨[], by simp⟩

theorem nodup_head_ne {x y : VCard} {t : List VCard}
    (h : ((x :: y :: t).map VCard.zigen).Nodup) : y.zigen ≠ x.zigen := by
  simp only [List.map_cons, List.nodup_cons, List.mem_cons] at h
  intro he
  exact h.1 (Or.inl he.symm)

theorem populateV2_head_ne {now : ℤ} {s s' : StateV2} {c : VCard}
    (h : populateV2 now s = .ok s')
    (hhead : s.learning_cards.head? = some c)
    (hlen : 2 ≤ s.learning_cards.length)
    (hnd : ((s.learning_cards ++ s.new_cards).map VCard.zigen).Nodup) :
    ∃ c', s'.learning_cards.head? = some c' ∧ c'.zigen ≠ c.zigen := by
  obtain ⟨k, hk⟩ := pullLoop_eq s.sched_param.learning_cards s.new_cards s.learning_cards
  unfold populateV2 at h
  rw [hk] at h
  rcases hq : extraPull now s.sched_param.learning_cards
      (s.new_cards.drop k, s.learning_cards ++ s.new_cards.take k) with ⟨qnew, qlearn⟩
  simp only [hq] at h
  have hspec := extraPull_spec now s.sched_param.learning_cards
      (s.new_cards.drop k, s.learning_cards ++ s.new_cards.take k)
  simp only [hq] at hspec
  obtain ⟨hqapp, hqlen⟩ := hspec
  have hpre := extraPull_prefix now s.sched_param.learning_cards
      (s.new_cards.drop k, s.learning_cards ++ s.new_cards.take k)
  simp only [hq] at hpre
  obtain ⟨t, ht⟩ := hpre
  have hqform : qlearn = s.learning_cards ++ (s.new_cards.take k ++ t) := by
    rw [ht, List.append_assoc]
  have hbase : (s.learning_cards ++ s.new_cards.take k) ++ s.new_cards.drop k =
      s.learning_cards ++ s.new_cards := by
    rw [List.append_assoc, List.take_append_drop]
  -- zigen distinctness carries over to the pooled list
  have hndq : (qlearn.map VCard.zigen).Nodup := by
    have heq : qlearn ++ qnew = s.learning_cards ++ s.new_cards := hqapp.trans hbase
    have h1 : ((qlearn ++ qnew).map VCard.zigen).Nodup := by
      rw [heq]
      exact hnd
    rw [List.map_append] at h1
    exact h1.of_append_left
  -- the pooled list starts with the two cards of the original pool
  rcases hsl : s.learning_cards with _ | ⟨c0, cs⟩
  · rw [hsl] at hlen
    simp at hlen
  have hc0 : c0 = c := by
    rw [hsl] at hhead
    exact Option.some.inj hhead
  rcases hh : qlearn.head? with _ | f <;> rw [hh] at h
  · exact absurd h (by simp)
  have hf : f = c0 := by
    rw [hqform, hsl] at hh
    simp only [List.cons_append, List.head?_cons] at hh
    exact (Option.some.inj hh).symm
  subst hf
  set sorted := qlearn.mergeSort (fun a b => cmpV2 s.sched_param now a.card b.card ≠ .gt)
    with hsorted
  have hsortperm : sorted.Perm qlearn := List.mergeSort_perm qlearn _
  have hndsorted : (sorted.map VCard.zigen).Nodup :=
    ((hsortperm.map VCard.zigen).nodup_iff).mpr hndq
  have hcs : 1 ≤ cs.length := by
    rw [hsl] at hlen
    simp only [List.length_cons] at hlen
    omega
  have hsortlen : 2 ≤ sorted.length := by
    rw [hsortperm.length_eq, hqform, hsl]
    simp only [List.cons_append, List.length_cons, List.length_append]
    omega
  have hex : ∀ l : List VCard, 2 ≤ l.length → ∃ x y tl, l = x :: y :: tl := by
    intro l hl
    rcases l with _ | ⟨x, _ | ⟨y, tl⟩⟩
    · simp at hl
    · simp at hl
    · exact ⟨x, y, tl, rfl⟩
  obtain ⟨x, y, tl, hso⟩ := hex sorted hsortlen
  rcases hh2 : sorted.head? with _ | f2 <;> rw [hh2] at h
  · exact absurd h (by simp)
  have hf2 : f2 = x := by
    rw [hso] at hh2
    exact (Option.some.inj hh2).symm
  subst hf2
  injection h with h
  subst h
  rw [← hc0]
  by_cases hz : f2.zigen = f.zigen
  · refine ⟨y, ?_, ?_⟩
    · show (if f2.zigen = f.zigen ∧ 1 < sorted.length then swap01 sorted
        else sorted).head? = some y
      rw [if_pos ⟨hz, by omega⟩, hso]
      rfl
    · rw [hso] at hndsorted
      have h3 := nodup_head_ne hndsorted
      rw [hz] at h3
      exact h3
  · refine ⟨f2, ?_, ?_⟩
    · show (if f2.zigen = f.zigen ∧ 1 < sorted.length then swap01 sorted
        else sorted).head? = some f2
      rw [if_neg (fun hcon => hz hcon.1), hso]
      rfl
    · exact hz

theorem get_cardV2_ok {now : ℤ} {s : StateV2} {c : VCard} {s' : StateV2}
    (h : get_cardV2 now s = .ok (c, s')) :
    populateV2 now s = .ok s' ∧ s'.learning_cards.head? = some c := by
  unfold get_cardV2 at h
  rcases hp : populateV2 now s with e | s1 <;> simp only [hp] at h
  · exact absurd h (by simp)
  rcases hh : s1.learning_cards.head? with _ | c1 <;> rw [hh] at h
  · exact absurd h (by simp)
  injection h with h
  have h1 : c1 = c := congrArg Prod.fst h
  have h2 : s1 = s' := congrArg Prod.snd h
  subst h1
  subst h2
  exact ⟨rfl, hh⟩

theorem rate_cardV2_ok_facts {now : ℤ} {s s' : StateV2} {r : ZT.Rating}
    (h : rate_cardV2 now s r = .ok s') :
    s'.learning_cards.map VCard.zigen = s.learning_cards.map VCard.zigen ∧
    s'.new_cards = s.new_cards ∧
    s'.learning_cards.head?.map VCard.zigen = s.learning_cards.head?.map VCard.zigen ∧
    s'.learning_cards.length = s.learning_cards.length ∧
    s'.sched_param = s.sched_param := by
  unfold rate_cardV2 at h
  rcases hl : s.learning_cards with _ | ⟨c0, rest⟩ <;> rw [hl] at h
  · exact absurd h (by simp)
  · injection h with h
    subst h
    refine ⟨by simp [hl], rfl, by simp [hl], by simp [hl], rfl⟩

theorem populateV2_total {now : ℤ} {s s' : StateV2}
    (h : populateV2 now s = .ok s') : total_cardsV2 s' = total_cardsV2 s := by
  have hperm := (populateV2_ok_facts h).1
  have := hperm.length_eq
  simp only [List.length_append] at this
  simp only [total_cardsV2]
  omega

theorem rate_cardV2_ok_total {now : ℤ} {s s' : StateV2} {r : ZT.Rating}
    (h : rate_cardV2 now s r = .ok s') : total_cardsV2 s' = total_cardsV2 s := by
  unfold rate_cardV2 at h
  rcases hl : s.learning_cards with _ | ⟨c, rest⟩ <;> rw [hl] at h
  · exact absurd h (by simp)
  · injection h with h
    subst h
    simp [total_cardsV2, hl]

theorem runV2_ok_total {s : StateV2} {rs : List (ℤ × ZT.Rating)} {s' : StateV2}
    (h : runV2 s rs = .ok s') : total_cardsV2 s' = total_cardsV2 s := by
  induction rs generalizing s with
  | nil =>
    unfold runV2 at h
    injection h with h
    subst h
    rfl
  | cons pr rs ih =>
    rcases pr with ⟨now, r⟩
    unfold runV2 at h
    rcases hr : rate_cardV2 now s r with e | s1 <;> simp only [hr] at h
    · exact absurd h (by simp)
    · rw [ih h, rate_cardV2_ok_total hr]

end ZTV2

/-! ## Claim theorems -/

section Claims

open ZT ZTV2

/-- C1 counterexample: with `Novice` parameters and a single-card deck, a
card starting `New` that is rated `Good` three consecutive times is still
`Learning{attempts:2}` — it has NOT transitioned to `Review` by the 3rd
successful rating (the first rating is consumed by `New → Learning{0}`). -/
theorem interval_three_goods_still_learning :
    run novice (Scheduler.new novice [⟨7, .New⟩]) [(0, .Good), (1, .Good), (2, .Good)] =
      .ok { new_cards := [], learning_cards := [⟨7, .Learning 2 2⟩],
            reviewing_cards := [], done_learning := 3 } ∧
    Card.isReview (.Learning 2 2) = false := by
  decide

/-- C1 amended: with `Novice` parameters and a single-card deck, successive
`Good` ratings produce the state sequence `New → Learning{0} → Learning{1}
→ Learning{2} → Review{repetition:1, easiness_factor:2.5}`; the promotion
to `Review` happens on the 4th successful rating, not the 3rd. -/
theorem interval_mastery_promotion_trace :
    run novice (Scheduler.new novice [⟨7, .New⟩]) [] =
      .ok { new_cards := [], learning_cards := [⟨7, .New⟩],
            reviewing_cards := [], done_learning := 0 } ∧
    run novice (Scheduler.new novice [⟨7, .New⟩]) [(0, .Good)] =
      .ok { new_cards := [], learning_cards := [⟨7, .Learning 0 0⟩],
            reviewing_cards := [], done_learning := 1 } ∧
    run novice (Scheduler.new novice [⟨7, .New⟩]) [(0, .Good), (1, .Good)] =
      .ok { new_cards := [], learning_cards := [⟨7, .Learning 1 1⟩],
            reviewing_cards := [], done_learning := 2 } ∧
    run novice (Scheduler.new novice [⟨7, .New⟩]) [(0, .Good), (1, .Good), (2, .Good)] =
      .ok { new_cards := [], learning_cards := [⟨7, .Learning 2 2⟩],
            reviewing_cards := [], done_learning := 3 } ∧
    run novice (Scheduler.new novice [⟨7, .New⟩]) [(0, .Good), (1, .Good), (2, .Good), (3, .Good)] =
      .ok { new_cards := [], learning_cards := [],
            reviewing_cards := [⟨7, .Review 1 1 (5 / 2) 3 86403⟩], done_learning := 4 } := by
  exact ⟨rfl, rfl, rfl, rfl, rfl⟩

/-- C2 counterexample: the demotion of a failed `Review` card back into the
learning queue (src/scheduler.rs line 273) inserts at the raw constant
`LEARNING_INTERVALS_F[0]` without clamping it to the queue length, so the
claim as stated ("every queue-insertion offset is clamped to valid bounds
before use") is false of the code: on a state whose learning queue holds a
single card, rating the interspersed review card `Again` hits the
out-of-range insertion panic.  (The state used here is not reachable from
`Scheduler::new`; see the amended theorem.) -/
theorem interval_demotion_offset_unclamped :
    rate_card novice 0
      { new_cards := [], learning_cards := [⟨0, .Learning 0 0⟩],
        reviewing_cards := [⟨1, .Review 3 1 (5 / 2) 0 0⟩], done_learning := 5 }
      .Again = .error .idx := by
  rfl

/-- C2 amended: on every state reachable from construction, `rate_card`
never raises an out-of-range index/insert panic, for any parameter set
whose interval tables are non-empty, whose first failure interval is at
most 2 and whose learning-queue capacity is at least 2 (both shipped
parameter sets satisfy this).  The unclamped demotion insert is safe
because reachability maintains the invariant that a learning queue of
length 1 can only coexist with an empty review queue. -/
theorem interval_no_index_panic {p : Param} {now : ℤ} {s : State} {r : Rating}
    (hS : p.intervals_s ≠ []) (hF : p.intervals_f ≠ [])
    (hF0 : p.intervals_f.getD 0 0 ≤ 2)
    (hLC : 2 ≤ p.learning_cards) (hreach : Reachable p s) :
    rate_card p now s r ≠ .error .idx := by
  intro hbad
  have hres := @rate_card_resOK p now s r hS hF hF0 hLC
    (reachable_inv hS hF hF0 hLC hreach)
  rw [hbad] at hres
  exact Panic.noConfusion hres

/-- Witness for the C2 amended theorem: Novice parameters, the
freshly-constructed two-card deck, a `Good` rating. -/
theorem interval_no_index_panic_witness :
    rate_card novice 0 (Scheduler.new novice [⟨0, .New⟩, ⟨1, .New⟩]) .Good ≠
      .error .idx :=
  interval_no_index_panic (by decide) (by decide) (by decide) (by decide)
    (Reachable.base [⟨0, .New⟩, ⟨1, .New⟩])

unseal List.merge List.mergeSort in
/-- C3 counterexample: for the priority (v2) scheduler, `get_card` is not
side-effect free.  On a freshly constructed two-card deck, calling
`get_card` twice with no intervening rating mutates the pool and returns
two different cards (zigen 0, then zigen 1). -/
theorem v2_get_card_not_idempotent :
    SchedulerV2.new 0 [⟨0, .New⟩, ⟨1, .New⟩] false =
      .ok ⟨[], [⟨1, .New⟩, ⟨0, .New⟩], .Novice⟩ ∧
    get_cardV2 1 ⟨[], [⟨1, .New⟩, ⟨0, .New⟩], .Novice⟩ =
      .ok (⟨0, .New⟩, ⟨[], [⟨0, .New⟩, ⟨1, .New⟩], .Novice⟩) ∧
    get_cardV2 2 ⟨[], [⟨0, .New⟩, ⟨1, .New⟩], .Novice⟩ =
      .ok (⟨1, .New⟩, ⟨[], [⟨1, .New⟩, ⟨0, .New⟩], .Novice⟩) ∧
    (⟨[], [⟨0, .New⟩, ⟨1, .New⟩], ParamV2.Novice⟩ : StateV2) ≠
      ⟨[], [⟨1, .New⟩, ⟨0, .New⟩], .Novice⟩ ∧
    (0 : ℕ) ≠ 1 := by
  decide

unseal List.merge List.mergeSort in
/-- C3 amended: the interval scheduler's `get_card` takes `&self` and is a
pure function of the state (modelled as `ZT.get_card`), but the v2 (and
FSRS) `get_card` takes `&mut self` and re-populates/re-sorts the pool
before reading its top; on a two-card v2 deck, three consecutive
`get_card` calls with no intervening rating alternate 0, 1, 0 between the
two pooled cards, mutating the state on every call. -/
theorem v2_get_card_alternates :
    (get_cardV2 1 ⟨[], [⟨1, .New⟩, ⟨0, .New⟩], .Novice⟩ =
       .ok (⟨0, .New⟩, ⟨[], [⟨0, .New⟩, ⟨1, .New⟩], .Novice⟩) ∧
     get_cardV2 2 ⟨[], [⟨0, .New⟩, ⟨1, .New⟩], .Novice⟩ =
       .ok (⟨1, .New⟩, ⟨[], [⟨1, .New⟩, ⟨0, .New⟩], .Novice⟩) ∧
     get_cardV2 3 ⟨[], [⟨1, .New⟩, ⟨0, .New⟩], .Novice⟩ =
       .ok (⟨0, .New⟩, ⟨[], [⟨0, .New⟩, ⟨1, .New⟩], .Novice⟩)) ∧
    ∀ p s, ZT.get_card p s = ZT.get_card p s := by
  exact ⟨by decide, fun p s => rfl⟩

/-- Unfolding lemma for `compare` on `ℤ` (whose `Ord` instance is
`compareOfLessAndEq`). -/
theorem int_compare_def (a b : ℤ) :
    compare a b = if a < b then Ordering.lt else if a = b then Ordering.eq else Ordering.gt :=
  rfl

/-- Unfolding lemma for `compare` on `ℕ`. -/
theorem nat_compare_def (a b : ℕ) :
    compare a b = if a < b then Ordering.lt else if a = b then Ordering.eq else Ordering.gt :=
  rfl

/-- Comparing two naturals after casting to `ℤ` agrees with comparing them
directly. -/
theorem compare_natCast (m n : ℕ) : compare (m : ℤ) (n : ℤ) = compare m n := by
  rw [int_compare_def, nat_compare_def]
  rcases Nat.lt_trichotomy m n with h | h | h
  · rw [if_pos (by exact_mod_cast h), if_pos h]
  · subst h
    rw [if_neg (by omega), if_pos rfl, if_neg (lt_irrefl m), if_pos rfl]
  · rw [if_neg (by omega), if_neg (by omega), if_neg (by omega), if_neg (by omega)]

/-- C6: the v2 priority comparator is exactly the lexicographic comparison
of the key `(tier, value)`; in particular it is a total preorder with the
precedence tiers overdue-`Review` (by due time) < `New` < `Learning` (by
next-appearance distance) < not-yet-due-`Review` (by due time), so a `New`
card sorts before a `Learning` card, after an overdue `Review` card and
before a not-yet-due `Review` card. -/
theorem v2_comparator_is_lex_on_tiers (p : ZTV2.ParamV2) (now : ℤ) (a b : ZTV2.Card) :
    ZTV2.cmpV2 p now a b =
      (compare (ZTV2.tierOf now a) (ZTV2.tierOf now b)).then
        (compare (ZTV2.valOf p a) (ZTV2.valOf p b)) := by
  cases a with
  | New =>
    cases b with
    | New => rfl
    | Learning b lr => rfl
    | Review li rep ef lr due =>
      by_cases h : due < now
      · simp [ZTV2.cmpV2, ZTV2.tierOf, ZTV2.valOf, if_pos h]
        rfl
      · simp [ZTV2.cmpV2, ZTV2.tierOf, ZTV2.valOf, if_neg h]
        rfl
  | Learning a lra =>
    cases b with
    | New => rfl
    | Learning b lrb =>
      show compare (ZTV2.distance p a) (ZTV2.distance p b) =
        Ordering.eq.then (compare ((ZTV2.distance p a : ℤ)) ((ZTV2.distance p b : ℤ)))
      rw [compare_natCast]
      rfl
    | Review li rep ef lr due =>
      by_cases h : due < now
      · simp [ZTV2.cmpV2, ZTV2.tierOf, ZTV2.valOf, if_pos h]
        rfl
      · simp [ZTV2.cmpV2, ZTV2.tierOf, ZTV2.valOf, if_neg h]
        rfl
  | Review lia repa efa lra duea =>
    cases b with
    | New =>
      by_cases h : duea < now
      · simp [ZTV2.cmpV2, ZTV2.tierOf, ZTV2.valOf, if_pos h]
        rfl
      · simp [ZTV2.cmpV2, ZTV2.tierOf, ZTV2.valOf, if_neg h]
        rfl
    | Learning b lrb =>
      by_cases h : duea < now
      · simp [ZTV2.cmpV2, ZTV2.tierOf, ZTV2.valOf, if_pos h]
        rfl
      · simp [ZTV2.cmpV2, ZTV2.tierOf, ZTV2.valOf, if_neg h]
        rfl
    | Review lib repb efb lrb dueb =>
      show compare duea dueb = _
      by_cases ha : duea < now <;> by_cases hb : dueb < now <;>
        simp [ZTV2.tierOf, ZTV2.valOf, if_pos, if_neg, ha, hb]
      · rfl
      · have : duea < dueb := by omega
        rw [int_compare_def, if_pos this]
        rfl
      · have : dueb < duea := by omega
        rw [int_compare_def, if_neg (by omega), if_neg (by omega)]
        rfl
      · rfl

/-- C8: for a `Review` card the FSRS retrievability at elapsed time
`t = now - last_reviewed` is exactly `R(t) = (1 + F*t/S)^(-w)` with
`w = W20` and `F = 0.9^(-1/w) - 1`, and for fixed stability `S > 0` the
function `R` is strictly decreasing in `t` on `t ≥ 0`. -/
theorem fsrs_retrievability_formula_and_decreasing :
    (∀ S d lr now : ℝ,
        FSRS.get_retrievability now (.Review S d lr) = FSRS.R_spec S (now - lr)) ∧
    (∀ S t₁ t₂ : ℝ, 0 < S → 0 ≤ t₁ → t₁ < t₂ → FSRS.R_spec S t₂ < FSRS.R_spec S t₁) := by
  constructor
  · intro S d lr now
    simp only [FSRS.get_retrievability, FSRS.R_spec, one_div]
  · intro S t₁ t₂ hS ht₁ ht
    have hw : (0 : ℝ) < FSRS.W20 := by norm_num [FSRS.W20]
    have hF : 0 < (0.9 : ℝ) ^ (-(1 / FSRS.W20)) - 1 := by
      have : (1 : ℝ) < (0.9 : ℝ) ^ (-(1 / FSRS.W20)) := by
        rw [Real.one_lt_rpow_iff_of_pos (by norm_num)]
        right
        constructor
        · norm_num
        · rw [neg_lt, neg_zero]
          positivity
      linarith
    set F := (0.9 : ℝ) ^ (-(1 / FSRS.W20)) - 1 with hFdef
    have hb₁ : 0 < 1 + F * t₁ / S := by
      have : 0 ≤ F * t₁ / S := div_nonneg (mul_nonneg hF.le ht₁) hS.le
      linarith
    have hb₂ : 0 < 1 + F * t₂ / S := by
      have : 0 ≤ F * t₂ / S := div_nonneg (mul_nonneg hF.le (le_trans ht₁ ht.le)) hS.le
      linarith
    have hlt : 1 + F * t₁ / S < 1 + F * t₂ / S := by
      have h1 : F * t₁ < F * t₂ := by nlinarith
      have h2 : F * t₁ / S < F * t₂ / S := (div_lt_div_right hS).mpr h1
      linarith
    unfold FSRS.R_spec
    rw [Real.rpow_neg hb₂.le, Real.rpow_neg hb₁.le]
    exact inv_lt_inv_of_lt (Real.rpow_pos_of_pos hb₁ _)
      (Real.rpow_lt_rpow hb₁.le hlt hw)

/-- Witness for the C8 theorem at concrete inputs. -/
theorem fsrs_retrievability_formula_and_decreasing_witness :
    FSRS.get_retrievability 3 (.Review 1 2 1) = FSRS.R_spec 1 (3 - 1) ∧
    FSRS.R_spec 1 1 < FSRS.R_spec 1 0 :=
  ⟨fsrs_retrievability_formula_and_decreasing.1 1 2 1 3,
   fsrs_retrievability_formula_and_decreasing.2 1 0 1 (by norm_num) (by norm_num) (by norm_num)⟩

/-- C9 (code bug evidence): rating a `New` FSRS card `Easy` produces a
`Review` card whose difficulty `W4 - exp(W5*(4-1)) + 1 ≈ -4.77` is
strictly negative — the code omits the `[1, 10]` clamp of the initial
difficulty prescribed by the FSRS algorithm it cites, so the claimed
strict positivity of `difficulty` fails on the very first update. -/
theorem fsrs_easy_initial_difficulty_negative :
    FSRS.CardF.rate 0 .Easy .New =
      .Review FSRS.W3 (FSRS.W4 - Real.exp (FSRS.W5 * (FSRS.grade .Easy - 1)) + 1) 0 ∧
    FSRS.W4 - Real.exp (FSRS.W5 * (FSRS.grade .Easy - 1)) + 1 < 0 := by
  constructor
  · rfl
  · have hg : FSRS.grade .Easy = 4 := rfl
    rw [hg]
    have h3 : FSRS.W5 * (4 - 1) = (2.5002 : ℝ) := by norm_num [FSRS.W5]
    rw [h3]
    have e1 : (2.7182818283 : ℝ) < Real.exp 1 := Real.exp_one_gt_d9
    have e2 : (1.5002 : ℝ) ≤ Real.exp 0.5002 := by
      have h := Real.add_one_le_exp (0.5002 : ℝ)
      linarith
    have e3 : Real.exp (2.5002 : ℝ) = Real.exp 1 * Real.exp 1 * Real.exp 0.5002 := by
      rw [← Real.exp_add, ← Real.exp_add]
      norm_num
    have epos : (0 : ℝ) < Real.exp 1 := Real.exp_pos 1
    have : (7.42 : ℝ) < Real.exp (2.5002 : ℝ) := by
      rw [e3]
      nlinarith
    norm_num [FSRS.W4]
    linarith

/-- C10: in the v2 scheduler, rating a `Learning` card increments its
attempts counter by exactly 1 regardless of the rating value (`Again`
included); consequently a card state with non-negative attempts stays
non-negative under every rating, and starting from `Learning{attempts:0}`
a card is promoted to `Review` after exactly `max_learning_attempts`
ratings of any kind. -/
theorem v2_learning_increments_and_promotes (p : ZTV2.ParamV2) (now lr : ℤ) (r : Rating) :
    (∀ a : ℤ, ZTV2.Card.rate p r now (.Learning a lr) =
      (if (p.max_learning_attempts : ℤ) ≤ a + 1 then .Review 1 1 (5 / 2) now (now + 300)
       else .Learning (a + 1) now)) ∧
    (∀ c : ZTV2.Card, ZTV2.attemptsOK c = true →
      ZTV2.attemptsOK (ZTV2.Card.rate p r now c) = true) ∧
    (1 ≤ p.max_learning_attempts →
      (fun c => ZTV2.Card.rate p r now c)^[p.max_learning_attempts] (.Learning 0 lr) =
        .Review 1 1 (5 / 2) now (now + 300)) := by
  have hstep : ∀ a : ℤ, ZTV2.Card.rate p r now (.Learning a lr) =
      (if (p.max_learning_attempts : ℤ) ≤ a + 1 then .Review 1 1 (5 / 2) now (now + 300)
       else .Learning (a + 1) now) := by
    intro a
    rfl
  refine ⟨hstep, ?_, ?_⟩
  · intro c hc
    cases c with
    | New => rfl
    | Learning a lr2 =>
      show ZTV2.attemptsOK (ZTV2.Card.rate p r now (.Learning a lr2)) = true
      by_cases h : (p.max_learning_attempts : ℤ) ≤ a + 1
      · simp [ZTV2.Card.rate, if_pos h, ZTV2.attemptsOK]
      · simp only [ZTV2.Card.rate, if_neg h, ZTV2.attemptsOK]
        simp only [ZTV2.attemptsOK] at hc
        simp at hc ⊢
        omega
    | Review li rep ef lr2 due => rfl
  · intro hmax
    have key : ∀ (n : ℕ) (a : ℤ) (t : ℤ), a + n + 1 = (p.max_learning_attempts : ℤ) →
        (fun c => ZTV2.Card.rate p r now c)^[n + 1] (.Learning a t) =
          .Review 1 1 (5 / 2) now (now + 300) := by
      intro n
      induction n with
      | zero =>
        intro a t ha
        rw [Function.iterate_one]
        show ZTV2.Card.rate p r now (.Learning a t) = _
        rw [show ZTV2.Card.rate p r now (.Learning a t) =
          (if (p.max_learning_attempts : ℤ) ≤ a + 1 then
            ZTV2.Card.Review 1 1 (5 / 2) now (now + 300)
           else .Learning (a + 1) now) from rfl]
        rw [if_pos (by omega)]
      | succ n ih =>
        intro a t ha
        simp only [Function.iterate_succ_apply]
        have hne : ¬ (p.max_learning_attempts : ℤ) ≤ a + 1 := by omega
        rw [show ZTV2.Card.rate p r now (.Learning a t) =
          (if (p.max_learning_attempts : ℤ) ≤ a + 1 then
            ZTV2.Card.Review 1 1 (5 / 2) now (now + 300)
           else .Learning (a + 1) now) from rfl]
        rw [if_neg hne]
        exact ih (a + 1) now (by omega)
    have h1 : p.max_learning_attempts = (p.max_learning_attempts - 1) + 1 := by omega
    rw [h1]
    exact key (p.max_learning_attempts - 1) 0 lr (by push_cast; omega)

/-- Witness for the C10 theorem at concrete inputs (Novice parameters). -/
theorem v2_learning_increments_and_promotes_witness :
    ZTV2.Card.rate .Novice .Again 9 (.Learning 0 5) =
      (if ((ZTV2.ParamV2.Novice.max_learning_attempts : ℤ)) ≤ 0 + 1 then
        ZTV2.Card.Review 1 1 (5 / 2) 9 (9 + 300)
       else .Learning (0 + 1) 9) ∧
    ZTV2.attemptsOK (ZTV2.Card.rate .Novice .Again 9 (.Learning 0 5)) = true ∧
    (fun c => ZTV2.Card.rate .Novice .Again 9 c)^[ZTV2.ParamV2.Novice.max_learning_attempts]
        (.Learning 0 5) = .Review 1 1 (5 / 2) 9 (9 + 300) :=
  ⟨(v2_learning_increments_and_promotes .Novice 9 5 .Again).1 0,
   (v2_learning_increments_and_promotes .Novice 9 5 .Again).2.1 (.Learning 0 5) rfl,
   (v2_learning_increments_and_promotes .Novice 9 5 .Again).2.2 (by decide)⟩

/-- C4: conservation of cards.  For the interval scheduler, construction
from a pending list yields `total_cards = pending.length`, and every
successful sequence of `rate_card` calls preserves the total
(`new + learning + review`); for the priority (v2) scheduler, construction
conserves the count and every successful rating sequence preserves
`new + learning`.  No card is created or dropped, only relocated. -/
theorem conservation_of_cards :
    (∀ (p : ZT.Param) (pending : List ZT.FlashCard),
      ZT.total_cards (ZT.Scheduler.new p pending) = pending.length) ∧
    (∀ (p : ZT.Param) (pending : List ZT.FlashCard) (rs : List (ℤ × Rating)) (s' : ZT.State),
      ZT.run p (ZT.Scheduler.new p pending) rs = .ok s' →
      ZT.total_cards s' = pending.length) ∧
    (∀ (now : ℤ) (pending : List ZTV2.VCard) (adept : Bool) (s0 : ZTV2.StateV2),
      ZTV2.SchedulerV2.new now pending adept = .ok s0 →
      ZTV2.total_cardsV2 s0 = pending.length) ∧
    (∀ (s : ZTV2.StateV2) (rs : List (ℤ × Rating)) (s' : ZTV2.StateV2),
      ZTV2.runV2 s rs = .ok s' → ZTV2.total_cardsV2 s' = ZTV2.total_cardsV2 s) := by
  have hbase : ∀ (p : ZT.Param) (pending : List ZT.FlashCard),
      ZT.total_cards (ZT.Scheduler.new p pending) = pending.length := by
    intro p pending
    unfold ZT.Scheduler.new
    rw [ZT.populate_total]
    simp [ZT.total_cards]
  refine ⟨hbase, ?_, ?_, ?_⟩
  · intro p pending rs s' hok
    rw [(ZT.run_ok_total_mem hok).1, hbase]
  · intro now pending adept s0 hok
    unfold ZTV2.SchedulerV2.new at hok
    rw [ZTV2.populateV2_total hok]
    simp [ZTV2.total_cardsV2]
  · intro s rs s' hok
    exact ZTV2.runV2_ok_total hok

unseal List.merge List.mergeSort in
/-- Witness for the C4 theorem at concrete inputs. -/
theorem conservation_of_cards_witness :
    ZT.total_cards (ZT.Scheduler.new ZT.novice [⟨7, .New⟩]) = 1 ∧
    ZT.total_cards (ZT.Scheduler.new ZT.novice [⟨7, .New⟩]) = 1 ∧
    ZTV2.total_cardsV2 ⟨[], [⟨1, .New⟩, ⟨0, .New⟩], .Novice⟩ = 2 ∧
    ZTV2.total_cardsV2 ⟨[], [⟨1, .New⟩, ⟨0, .New⟩], .Novice⟩ =
      ZTV2.total_cardsV2 ⟨[], [⟨1, .New⟩, ⟨0, .New⟩], .Novice⟩ :=
  ⟨conservation_of_cards.1 ZT.novice [⟨7, .New⟩],
   conservation_of_cards.2.1 ZT.novice [⟨7, .New⟩] [] _ rfl,
   conservation_of_cards.2.2.1 0 [⟨0, .New⟩, ⟨1, .New⟩] false _ (by decide),
   conservation_of_cards.2.2.2 ⟨[], [⟨1, .New⟩, ⟨0, .New⟩], .Novice⟩ [] _ rfl⟩

/-- C5: the easiness floor.  For the interval scheduler, along every
successful rating sequence from construction on a deck whose cards all
satisfy the floor (in particular a deck of `New` cards), every card of the
resulting state satisfies `easiness_factor ≥ 1.3` whenever it is in the
`Review` state; for the v2 scheduler the per-card transition
unconditionally yields a state satisfying the floor, in both its success
and failure branches. -/
theorem easiness_factor_floor :
    (∀ (p : ZT.Param) (pending : List ZT.FlashCard) (rs : List (ℤ × Rating)) (s' : ZT.State),
      (∀ c ∈ pending, ZT.efOK c.card = true) →
      ZT.run p (ZT.Scheduler.new p pending) rs = .ok s' →
      ∀ c ∈ ZT.allCards s', ZT.efOK c.card = true) ∧
    (∀ (p : ZTV2.ParamV2) (r : Rating) (now : ℤ) (c : ZTV2.Card),
      ZTV2.efOKv2 (ZTV2.Card.rate p r now c) = true) := by
  constructor
  · intro p pending rs s' hpend hok c hc
    rcases (ZT.run_ok_total_mem hok).2 c hc with h1 | h1
    · have h2 := ZT.populate_mem _ _ h1
      simp only [ZT.allCards, List.append_nil, List.mem_append, List.not_mem_nil,
        or_false] at h2
      exact hpend c h2
    · exact h1
  · intro p r now c
    rcases c with _ | ⟨a, lr⟩ | ⟨li, rep, ef, lr, due⟩
    · rfl
    · show ZTV2.efOKv2 (ZTV2.Card.rate p r now (.Learning a lr)) = true
      by_cases hm : (p.max_learning_attempts : ℤ) ≤ a + 1
      · simp only [ZTV2.Card.rate, if_pos hm, ZTV2.efOKv2, decide_eq_true_eq]
        norm_num
      · simp only [ZTV2.Card.rate, if_neg hm, ZTV2.efOKv2]
    · show ZTV2.efOKv2 (ZTV2.Card.rate p r now (.Review li rep ef lr due)) = true
      simp only [ZTV2.Card.rate, ZTV2.efOKv2, decide_eq_true_eq]
      exact le_max_right _ _

/-- Witness for the C5 theorem at concrete inputs. -/
theorem easiness_factor_floor_witness :
    ZT.efOK (ZT.FlashCard.mk 7 .New).card = true ∧
    ZTV2.efOKv2 (ZTV2.Card.rate .Novice .Again 0 .New) = true :=
  ⟨easiness_factor_floor.1 ZT.novice [⟨7, .New⟩] [] _ (by decide) rfl
     ⟨7, .New⟩ (by decide),
   easiness_factor_floor.2 .Novice .Again 0 .New⟩

/-- C7: the no-repeat guarantee of the priority (v2) scheduler.  Starting
from any state with at least two pooled cards and pairwise-distinct card
identities, let `get_card` return the top card, apply any rating to it and
let `get_card` select again: the newly selected top card is never the card
just rated — when the re-sort leaves the same winner on top, the top two
entries are swapped. -/
theorem v2_no_repeat_after_rating
    (s : ZTV2.StateV2) (now₁ now₂ now₃ : ℤ) (r : Rating)
    (c₁ : ZTV2.VCard) (s₁ s₂ : ZTV2.StateV2) (c₂ : ZTV2.VCard) (s₃ : ZTV2.StateV2)
    (hnd : ((s.learning_cards ++ s.new_cards).map ZTV2.VCard.zigen).Nodup)
    (hlen : 2 ≤ s.learning_cards.length)
    (h1 : ZTV2.get_cardV2 now₁ s = .ok (c₁, s₁))
    (h2 : ZTV2.rate_cardV2 now₂ s₁ r = .ok s₂)
    (h3 : ZTV2.get_cardV2 now₃ s₂ = .ok (c₂, s₃)) :
    c₂.zigen ≠ c₁.zigen := by
  obtain ⟨hp1, hh1⟩ := ZTV2.get_cardV2_ok h1
  obtain ⟨hperm1, hlen1, _⟩ := ZTV2.populateV2_ok_facts hp1
  have hnd1 : ((s₁.learning_cards ++ s₁.new_cards).map ZTV2.VCard.zigen).Nodup :=
    ((hperm1.map ZTV2.VCard.zigen).nodup_iff).mpr hnd
  obtain ⟨hmap2, hnew2, hhead2, hlen2, _⟩ := ZTV2.rate_cardV2_ok_facts h2
  have hnd2 : ((s₂.learning_cards ++ s₂.new_cards).map ZTV2.VCard.zigen).Nodup := by
    rw [List.map_append, hmap2, hnew2, ← List.map_append]
    exact hnd1
  have hlen2' : 2 ≤ s₂.learning_cards.length := by
    rw [hlen2]
    omega
  rcases hh2a : s₂.learning_cards.head? with _ | c₁' 
  · rw [hh2a, hh1] at hhead2
    simp at hhead2
  have hz12 : c₁'.zigen = c₁.zigen := by
    rw [hh2a, hh1] at hhead2
    simpa using hhead2
  obtain ⟨hp3, hh3⟩ := ZTV2.get_cardV2_ok h3
  obtain ⟨c₂', hh3', hne⟩ := ZTV2.populateV2_head_ne hp3 hh2a hlen2' hnd2
  have hc2 : c₂' = c₂ := by
    rw [hh3] at hh3'
    exact Option.some.inj hh3'.symm
  rw [← hc2, ← hz12]
  exact hne

unseal List.merge List.mergeSort in
/-- Witness for the C7 theorem at a concrete two-card pool. -/
theorem v2_no_repeat_after_rating_witness :
    (ZTV2.VCard.mk 0 .New).zigen ≠ (ZTV2.VCard.mk 1 .New).zigen :=
  v2_no_repeat_after_rating ⟨[], [⟨0, .New⟩, ⟨1, .New⟩], .Novice⟩ 0 5 6 .Again
    ⟨1, .New⟩
    ⟨[], [⟨1, .New⟩, ⟨0, .New⟩], .Novice⟩
    ⟨[], [⟨1, .Learning 0 5⟩, ⟨0, .New⟩], .Novice⟩
    ⟨0, .New⟩
    ⟨[], [⟨0, .New⟩, ⟨1, .Learning 0 5⟩], .Novice⟩
    (by decide) (by decide) (by decide) (by decide) (by decide)

end Claims
